import Mathlib

/-!
Phantom Pool — verification of the relayer and contract against their spec

Shallow embedding of the phantom-pool dark-pool system:

* `src/relayer/src/server.ts` / `orderbook.ts` — the in-memory `OrderBook`
  (commitment-checked `add`, `remove`, best-bid/ask, `publicOrders`);
* `src/relayer/src/matcher.ts` — `MatchingEngine.match()`, the greedy
  crossing-pair loop with the odd-price-sum skip policy;
* `src/relayer/src/relay.ts` — the orchestrator's private order-terms store
  (`orderSecrets`) across `_proveAndSubmit` / `_trySubmitSettlement`;
* `contracts/src/phantom_pool.cairo` — the on-chain state machine
  (`condense`, `submit_order`, `submit_match`, `submit_settlement`,
  `cancel_order`) and the incremental depth-20 Poseidon Merkle accumulator
  (`_insert_leaf`, `_merkle_zero`).

Machine integers: TypeScript `bigint` order fields are modelled as `Int`
(with `Int.tdiv`/`Int.tmod` for the truncating `bigint` `/` and `%`), Cairo
`felt252`/`u64`/`u256` values as `Nat` with explicit bounds where overflow
or `try_into` matters.  Hash functions (Poseidon / Pedersen) are opaque
parameters: every theorem quantifies over them.
-/

namespace PhantomPool

/-! ## Relayer data model (`src/relayer/src/types.ts`) -/

/-- An order as held by the relayer.  `direction`: 0 = buy, 1 = sell.
`price`, `amount`, `nonce` are `bigint` (modelled `Int`); `commitment`,
`traderAddress`, `tongoPublicKey` are hex felt strings (modelled `Nat`);
`receivedAt` is a unix-millisecond timestamp. -/
structure Order where
  direction : Nat
  price : Int
  amount : Int
  nonce : Int
  commitment : Nat
  traderAddress : Nat
  tongoPublicKey : Nat
  receivedAt : Nat
deriving DecidableEq, Repr

/-- Match status strings used by the relayer (`MatchResult.status`). -/
inductive MStatus where
  | pending_proof | proving | submitting | confirmed | settling | settled | failed
deriving DecidableEq, Repr

/-- A `MatchResult` as produced by `MatchingEngine.match()`.  The
nondeterministic bookkeeping fields (`matchId` from `randomUUID()`,
`matchedAt` from `Date.now()`) are omitted: no claim depends on them. -/
structure MatchResult where
  buyCommitment : Nat
  sellCommitment : Nat
  settlementCommitment : Nat
  settlementAmount : Int
  settlementPrice : Int
  status : MStatus
deriving DecidableEq, Repr

/-! ## OrderBook (`src/relayer/src/orderbook.ts`, served via `server.ts`)

`_orders` is a JS `Map` (insertion-ordered, unique keys): modelled as an
association list.  `_buys` / `_sells` are arrays kept sorted by
`push` + stable `sort`; on an already association-free array the ECMAScript
stable sort produces the unique stable reordering, modelled by
`List.insertionSort` (Mathlib's insertion sort is stable for the same
total preorder the JS comparator encodes). -/

structure OrderBook where
  orders : List (Nat × Order)
  buys : List Order
  sells : List Order
deriving DecidableEq, Repr

namespace OrderBook

/-- `Map.get` on the `_orders` map. -/
def lookup (b : OrderBook) (c : Nat) : Option Order :=
  (b.orders.find? (fun p => p.1 = c)).map (fun p => p.2)

/-- Buy-side comparator order: descending price (`(a,b) => a.price > b.price ? -1 : ...`). -/
def buyLE (a b : Order) : Prop := b.price ≤ a.price

/-- Sell-side comparator order: ascending price. -/
def sellLE (a b : Order) : Prop := a.price ≤ b.price

instance : DecidableRel buyLE := fun a b => inferInstanceAs (Decidable (b.price ≤ a.price))
instance : DecidableRel sellLE := fun a b => inferInstanceAs (Decidable (a.price ≤ b.price))

/-- Rejection reasons of `OrderBook.add` (the code returns the matching
error strings: "Commitment mismatch: …", "Order already in book: …",
"Amount must be > 0", "Price must be > 0"). -/
inductive Reject where
  | commitmentMismatch | duplicate | nonPositiveAmount | nonPositivePrice
deriving DecidableEq, Repr

/-- `OrderBook.add(order)`.  `pcommit` is the Poseidon order-commitment hash
`computeCommitment(direction, price, amount, nonce)`. -/
def add (pcommit : Nat → Int → Int → Int → Nat) (b : OrderBook) (o : Order) :
    Except Reject OrderBook :=
  let expected := pcommit o.direction o.price o.amount o.nonce
  if expected ≠ o.commitment then .error .commitmentMismatch
  else if (b.lookup o.commitment).isSome then .error .duplicate
  else if o.amount ≤ 0 then .error .nonPositiveAmount
  else if o.price ≤ 0 then .error .nonPositivePrice
  else .ok
    { orders := b.orders ++ [(o.commitment, o)]
      buys := if o.direction = 0 then List.insertionSort buyLE (b.buys ++ [o]) else b.buys
      sells := if o.direction = 0 then b.sells else List.insertionSort sellLE (b.sells ++ [o]) }

/-- `OrderBook.remove(commitment)`: no-op when absent, else deletes the map
entry and filters the side array of the found order's direction. -/
def remove (b : OrderBook) (c : Nat) : OrderBook :=
  match b.lookup c with
  | none => b
  | some o =>
    { orders := b.orders.filter (fun p => p.1 ≠ c)
      buys := if o.direction = 0 then b.buys.filter (fun x => x.commitment ≠ c) else b.buys
      sells := if o.direction = 0 then b.sells else b.sells.filter (fun x => x.commitment ≠ c) }

/-- `bestBuy()` — head of the descending-price buy array. -/
def bestBuy (b : OrderBook) : Option Order := b.buys.head?

/-- `bestSell()` — head of the ascending-price sell array. -/
def bestSell (b : OrderBook) : Option Order := b.sells.head?

/-- `size()` — number of entries of the `_orders` map. -/
def size (b : OrderBook) : Nat := b.orders.length

/-- The non-sensitive projection returned by `publicOrders()`. -/
structure PublicOrder where
  commitment : Nat
  direction : Nat
  traderAddress : Nat
  receivedAt : Nat
deriving DecidableEq, Repr

/-- `publicOrders()` — public view over `allOrders()` (map-insertion order). -/
def publicOrders (b : OrderBook) : List PublicOrder :=
  b.orders.map (fun p =>
    { commitment := p.2.commitment
      direction := p.2.direction
      traderAddress := p.2.traderAddress
      receivedAt := p.2.receivedAt })

/-- Book well-formedness: unique map keys, entries keyed by their own
commitment, and each side array holding orders of its direction that are
present in the map.  Every book reachable through `add`/`remove` satisfies
this. -/
def WF (b : OrderBook) : Prop :=
  (b.orders.map Prod.fst).Nodup ∧
  (∀ p ∈ b.orders, p.2.commitment = p.1) ∧
  (∀ o ∈ b.buys, b.lookup o.commitment = some o ∧ o.direction = 0) ∧
  (∀ o ∈ b.sells, b.lookup o.commitment = some o ∧ o.direction = 1)

instance (b : OrderBook) : Decidable (WF b) := by
  unfold WF; infer_instance

end OrderBook

/-! ## MatchingEngine (`src/relayer/src/matcher.ts`) -/

open OrderBook in
/-- One iteration of the greedy `while (true)` loop of
`MatchingEngine.match()`.  `none` = the loop breaks (a side empty, or the
spread open); `some (r?, b')` = the loop continues with book `b'`, having
emitted `r?`.  `sHash` is `computeSettlementCommitment` (Poseidon of
settlement amount and price).  JS `bigint` `%` and `/` truncate toward
zero, hence `Int.tmod` / `Int.tdiv`. -/
def matchStep (sHash : Int → Int → Nat) (b : OrderBook) :
    Option (Option MatchResult × OrderBook) :=
  match b.bestBuy, b.bestSell with
  | some buy, some sell =>
    if buy.price < sell.price then none
    else
      let settlementAmount : Int := if buy.amount < sell.amount then buy.amount else sell.amount
      let priceSum := buy.price + sell.price
      if Int.tmod priceSum 2 ≠ 0 then
        -- odd sum: remove the older order (by receivedAt) and continue
        some (none, if buy.receivedAt < sell.receivedAt
                    then b.remove buy.commitment else b.remove sell.commitment)
      else if settlementAmount = 0 then
        -- sanity guard: discard both and continue
        some (none, (b.remove buy.commitment).remove sell.commitment)
      else
        some (some
          { buyCommitment := buy.commitment
            sellCommitment := sell.commitment
            settlementCommitment := sHash settlementAmount (Int.tdiv priceSum 2)
            settlementAmount := settlementAmount
            settlementPrice := Int.tdiv priceSum 2
            status := .pending_proof },
          (b.remove buy.commitment).remove sell.commitment)
  | _, _ => none

/-- The matching loop with explicit fuel.  `matchStep` strictly shrinks a
well-formed book (claim C10), so fuel `b.size` is enough: `matchRun` below
instantiates it there, matching the unbounded source loop on every
reachable book. -/
def matchLoop (sHash : Int → Int → Nat) : Nat → OrderBook → List MatchResult × OrderBook
  | 0, b => ([], b)
  | fuel + 1, b =>
    match matchStep sHash b with
    | none => ([], b)
    | some (none, b') => matchLoop sHash fuel b'
    | some (some r, b') =>
      let rest := matchLoop sHash fuel b'
      (r :: rest.1, rest.2)

/-- `MatchingEngine.match()`: run the loop to completion. -/
def matchRun (sHash : Int → Int → Nat) (b : OrderBook) : List MatchResult × OrderBook :=
  matchLoop sHash b.size b

/-! ## Concrete example books (spec §8 test vectors) -/

/-- The crossing pair of the spec's matching test: buy=(price=1000, amount=500). -/
def buyCrossEx : Order := ⟨0, 1000, 500, 7, 1, 11, 21, 0⟩

/-- sell=(price=900, amount=600). -/
def sellCrossEx : Order := ⟨1, 900, 600, 8, 2, 12, 22, 1⟩

/-- A book containing exactly the two crossing orders. -/
def bookCross : OrderBook := ⟨[(1, buyCrossEx), (2, sellCrossEx)], [buyCrossEx], [sellCrossEx]⟩

/-- Odd-sum pair: buy=(price=101), received earlier (`receivedAt = 5`). -/
def buyOddEx : Order := ⟨0, 101, 500, 7, 1, 11, 21, 5⟩

/-- sell=(price=100), received later (`receivedAt = 9`). -/
def sellOddEx : Order := ⟨1, 100, 600, 8, 2, 12, 22, 9⟩

/-- A book containing exactly the two odd-sum orders. -/
def bookOdd : OrderBook := ⟨[(1, buyOddEx), (2, sellOddEx)], [buyOddEx], [sellOddEx]⟩

/-- A throwaway concrete hash used to instantiate hash-parametric theorems. -/
def sHash0 : Int → Int → Nat := fun _ _ => 0

/-! ## Claim C9 — the public view leaks no private fields -/

/-- Two order-map entries agreeing on the key and on every non-sensitive
field (commitment, direction, trader address, received-at) — they may
differ arbitrarily in price, amount and nonce. -/
def samePublic (p q : Nat × Order) : Prop :=
  p.1 = q.1 ∧ p.2.commitment = q.2.commitment ∧ p.2.direction = q.2.direction ∧
  p.2.traderAddress = q.2.traderAddress ∧ p.2.receivedAt = q.2.receivedAt

instance : DecidableRel samePublic := fun p q => by
  unfold samePublic; infer_instance

/-- The per-entry projection computed by `publicOrders()`. -/
def pubProj (p : Nat × Order) : OrderBook.PublicOrder :=
  { commitment := p.2.commitment, direction := p.2.direction,
    traderAddress := p.2.traderAddress, receivedAt := p.2.receivedAt }

/-! ## Witnesses for the hypothesis-bearing matcher/book theorems -/

/-- A buy order whose commitment (5) matches the constant test hash. -/
def buyCrossEx2 : Order := ⟨0, 1000, 500, 7, 5, 11, 21, 0⟩

/-- `buyCrossEx` with different price/amount/nonce but the same public fields. -/
def buyCrossVar : Order := ⟨0, 123, 9, 42, 1, 11, 21, 0⟩

/-! ## PhantomPool contract (`contracts/src/phantom_pool.cairo`)

Cairo `felt252` values are modelled as `Nat` (bounds checked explicitly
where the code performs `try_into`), `u256` public inputs as `Nat`
(`.low` is `% 2^128`), `u64` counters as `Nat` with the overflow panic of
`+ 1` modelled as a revert.  A Cairo `assert` failure reverts the whole
transaction, so every entrypoint is a function
`CState → Except String CState`: an `.error` outcome leaves the caller's
state untouched.  `poseidon_hash_span` on two-element spans is the opaque
parameter `h2`; the four-element deposit-leaf hash is absorbed into the
arbitrary `leafHash` of `record_deposit` steps.  External calls
(the Garaga verifier, `deploy_syscall`, ERC-20 / Tongo transfers) are
environment parameters of each call; the Tongo transfers forwarded by
`submit_settlement` are logged in `transferCalls`. -/

/-- Starknet felt252 prime. -/
def FELT_P : Nat := 2 ^ 251 + 17 * 2 ^ 192 + 1

/-- u64 modulus. -/
def U64_MOD : Nat := 2 ^ 64

/-- Fixed denominations (satoshis), `DENOM_TENTH` / `DENOM_ONE` / `DENOM_TEN`. -/
def DENOM_TENTH : Nat := 10000000

def DENOM_ONE : Nat := 100000000

def DENOM_TEN : Nat := 1000000000

/-- `_assert_valid_denomination`'s condition. -/
def validDenomination (amount : Nat) : Prop :=
  amount = DENOM_TENTH ∨ amount = DENOM_ONE ∨ amount = DENOM_TEN

instance (amount : Nat) : Decidable (validDenomination amount) := by
  unfold validDenomination; infer_instance

/-- Storage struct `OrderCommitment` (status: 0 Inactive, 1 Active,
2 Matched, 3 Settled, 4 Cancelled). -/
structure OrderCommitment where
  trader : Nat
  timestamp : Nat
  status : Nat
  order_id : Nat
deriving DecidableEq, Repr

/-- Storage struct `MatchedPair`. -/
structure MatchedPair where
  buy_commitment : Nat
  sell_commitment : Nat
  settlement_commitment : Nat
  settled : Bool
deriving DecidableEq, Repr

/-- The all-zero storage default of `OrderCommitment`. -/
def OrderCommitment.zero : OrderCommitment := ⟨0, 0, 0, 0⟩

/-- The all-zero storage default of `MatchedPair`. -/
def MatchedPair.zero : MatchedPair := ⟨0, 0, 0, false⟩

/-- PhantomPool contract storage (plus the model-level `transferCalls` log
of Tongo transfers forwarded by `submit_settlement`).  Cairo storage maps
default to zero, hence total functions. -/
structure CState where
  tongo_wbtc : Nat
  tongo_usdc : Nat
  accumulator_root : Nat
  next_leaf_index : Nat
  filled_subtrees : Nat → Nat
  leaves : Nat → Nat
  used_phantom_addrs : Nat → Bool
  spent_nullifiers : Nat → Bool
  order_commitments : Nat → OrderCommitment
  order_counter : Nat
  matched_pairs : Nat → MatchedPair
  match_nonce : Nat
  transferCalls : List (Nat × List Nat)

/-! ### Incremental Merkle accumulator (`_merkle_zero`, `_insert_leaf`) -/

/-- `_merkle_zero(level)`: zero(0) = 0, zero(i) = Poseidon(zero(i-1), zero(i-1)).
(`_zero_tree_root()` is `merkleZero h2 20`.) -/
def merkleZero (h2 : Nat → Nat → Nat) : Nat → Nat
  | 0 => 0
  | k + 1 => h2 (merkleZero h2 k) (merkleZero h2 k)

/-- The level loop of `_insert_leaf`: `fuel` counts the remaining levels
(`MERKLE_DEPTH - level`); returns the new root and the updated
`filled_subtrees` map. -/
def insertLoop (h2 : Nat → Nat → Nat) :
    Nat → (Nat → Nat) → Nat → Nat → Nat → Nat × (Nat → Nat)
  | 0, filled, cur, _, _ => (cur, filled)
  | fuel + 1, filled, cur, idx, lvl =>
    if idx % 2 = 0 then
      -- current is a left child: store it, use zero as right sibling
      insertLoop h2 fuel (Function.update filled lvl cur)
        (h2 cur (merkleZero h2 lvl)) (idx / 2) (lvl + 1)
    else
      -- current is a right child: left sibling is already stored
      insertLoop h2 fuel filled (h2 (filled lvl) cur) (idx / 2) (lvl + 1)

/-- `_insert_leaf(leaf, index)` on a state: asserts `index < 2^20`, runs
the 20-level loop, writes the new root and bumps `next_leaf_index`.
(The caller `record_deposit` also writes `leaves[index]`.) -/
def insertLeaf (h2 : Nat → Nat → Nat) (s : CState) (leaf : Nat) : Except String CState :=
  if s.next_leaf_index < 1048576 then
    let r := insertLoop h2 20 s.filled_subtrees leaf s.next_leaf_index 0
    .ok { s with accumulator_root := r.1
                 filled_subtrees := r.2
                 next_leaf_index := s.next_leaf_index + 1 }
  else .error "merkle tree full"

/-! ### Entrypoints -/

/-- `record_deposit(phantom_addr, amount, timestamp, salt)`.  `balanceOk`
is the outcome of the wBTC `balance_of` check; `leafHash` stands for
`Poseidon(salt, phantom_addr, amount.low, timestamp)`. -/
def record_deposit (h2 : Nat → Nat → Nat) (s : CState)
    (phantom_addr amount : Nat) (balanceOk : Bool) (leafHash : Nat) :
    Except String CState :=
  if ¬ validDenomination amount then .error "invalid denomination"
  else if s.used_phantom_addrs phantom_addr then .error "phantom addr already recorded"
  else if ¬ balanceOk then .error "insufficient deposit balance"
  else
    insertLeaf h2
      { s with used_phantom_addrs := Function.update s.used_phantom_addrs phantom_addr true
               leaves := Function.update s.leaves s.next_leaf_index leafHash }
      leafHash

/-- `condense(full_proof_with_hints, recipient, denomination, phantom_addr,
salt)`.  `proofResult` is the verifier outcome (`none` = invalid proof,
`some publicInputs` with inputs in Noir declaration order
root / tongo commitment / denomination / nullifier); `deployedAddr` the
`deploy_syscall` outcome; `transferOk` the ERC-20 `transfer_from` outcome. -/
def condense (s : CState) (proofResult : Option (List Nat))
    (denomination phantom_addr : Nat) (deployedAddr : Option Nat)
    (transferOk : Bool) : Except String CState :=
  if ¬ validDenomination denomination then .error "invalid denomination"
  else
    match proofResult with
    | none => .error "condenser proof invalid"
    | some public_inputs =>
      match public_inputs[0]? with
      | none => .error "span index out of range"
      | some pi0 =>
        if pi0 ≠ s.accumulator_root then .error "wrong accumulator root"
        else
          match public_inputs[2]? with
          | none => .error "span index out of range"
          | some pi2 =>
            if pi2 ≠ denomination % 2 ^ 128 then .error "denomination mismatch"
            else
              match public_inputs[3]? with
              | none => .error "span index out of range"
              | some pi3 =>
                if FELT_P ≤ pi3 then .error "felt conversion failed"
                else if s.spent_nullifiers pi3 then .error "nullifier already spent"
                else
                  match deployedAddr with
                  | none => .error "deploy failed"
                  | some da =>
                    if da ≠ phantom_addr then .error "phantom addr mismatch"
                    else if ¬ transferOk then .error "transfer failed"
                    else .ok { s with
                      spent_nullifiers := Function.update s.spent_nullifiers pi3 true }

/-- `submit_order(full_proof_with_hints)` invoked by `caller` at block
time `timestamp`; public inputs: commitment, trader tongo pubkey. -/
def submit_order (s : CState) (proofResult : Option (List Nat))
    (caller timestamp : Nat) : Except String CState :=
  match proofResult with
  | none => .error "order proof invalid"
  | some public_inputs =>
    match public_inputs[0]?, public_inputs[1]? with
    | some pi0, some pi1 =>
      if FELT_P ≤ pi0 ∨ FELT_P ≤ pi1 then .error "felt conversion failed"
      else if (s.order_commitments pi0).trader ≠ 0 then .error "commitment already exists"
      else if s.order_counter + 1 ≥ U64_MOD then .error "u64 overflow"
      else .ok { s with
        order_commitments := Function.update s.order_commitments pi0
          { trader := caller, timestamp := timestamp, status := 1,
            order_id := s.order_counter }
        order_counter := s.order_counter + 1 }
    | _, _ => .error "span index out of range"

/-- `submit_match(full_proof_with_hints)`; public inputs: buy commitment,
sell commitment, settlement commitment. -/
def submit_match (s : CState) (proofResult : Option (List Nat)) :
    Except String CState :=
  match proofResult with
  | none => .error "match proof invalid"
  | some public_inputs =>
    match public_inputs[0]?, public_inputs[1]?, public_inputs[2]? with
    | some pi0, some pi1, some pi2 =>
      if FELT_P ≤ pi0 ∨ FELT_P ≤ pi1 ∨ FELT_P ≤ pi2 then .error "felt conversion failed"
      else
        let buy_order := s.order_commitments pi0
        if buy_order.trader = 0 then .error "buy order not found"
        else if buy_order.status ≠ 1 then .error "buy order not active"
        else
          let sell_order := s.order_commitments pi1
          if sell_order.trader = 0 then .error "sell order not found"
          else if sell_order.status ≠ 1 then .error "sell order not active"
          else if s.match_nonce + 1 ≥ U64_MOD then .error "u64 overflow"
          else .ok { s with
            matched_pairs := Function.update s.matched_pairs s.match_nonce
              { buy_commitment := pi0, sell_commitment := pi1,
                settlement_commitment := pi2, settled := false }
            match_nonce := s.match_nonce + 1
            order_commitments :=
              Function.update
                (Function.update s.order_commitments pi0 { buy_order with status := 2 })
                pi1 { sell_order with status := 2 } }
    | _, _, _ => .error "span index out of range"

/-- `submit_settlement(match_id, seller_transfer_calldata,
buyer_transfer_calldata)`.  `sellerOk` / `buyerOk` are the outcomes of the
two forwarded Tongo `transfer` syscalls. -/
def submit_settlement (s : CState) (match_id : Nat)
    (seller_calldata buyer_calldata : List Nat) (sellerOk buyerOk : Bool) :
    Except String CState :=
  let pair := s.matched_pairs match_id
  if pair.buy_commitment = 0 then .error "match not found"
  else if pair.settled then .error "already settled"
  else if ¬ sellerOk then .error "seller transfer failed"
  else if ¬ buyerOk then .error "buyer transfer failed"
  else
    let buy_order := s.order_commitments pair.buy_commitment
    let sell_order := s.order_commitments pair.sell_commitment
    .ok { s with
      transferCalls := s.transferCalls ++
        [(s.tongo_wbtc, seller_calldata), (s.tongo_usdc, buyer_calldata)]
      matched_pairs := Function.update s.matched_pairs match_id { pair with settled := true }
      order_commitments :=
        Function.update
          (Function.update s.order_commitments pair.buy_commitment
            { buy_order with status := 3 })
          pair.sell_commitment { sell_order with status := 3 } }

/-- `cancel_order(commitment)` by `caller`. -/
def cancel_order (s : CState) (commitment caller : Nat) : Except String CState :=
  let order := s.order_commitments commitment
  if order.trader = 0 then .error "order not found"
  else if order.trader ≠ caller then .error "not order owner"
  else if order.status ≠ 1 then .error "order not active"
  else .ok { s with
    order_commitments := Function.update s.order_commitments commitment
      { order with status := 4 } }

/-! ### Transaction step relation -/

/-- One external invocation of a PhantomPool entrypoint, with its
environment outcomes. -/
inductive ContractCall where
  | recordDeposit (phantom_addr amount : Nat) (balanceOk : Bool) (leafHash : Nat)
  | condenseCall (proofResult : Option (List Nat)) (denomination phantom_addr : Nat)
      (deployedAddr : Option Nat) (transferOk : Bool)
  | submitOrderCall (proofResult : Option (List Nat)) (caller timestamp : Nat)
  | submitMatchCall (proofResult : Option (List Nat))
  | submitSettlementCall (match_id : Nat) (seller buyer : List Nat) (sellerOk buyerOk : Bool)
  | cancelOrderCall (commitment caller : Nat)

/-- Dispatch a call against a state. -/
def applyCall (h2 : Nat → Nat → Nat) (c : ContractCall) (s : CState) :
    Except String CState :=
  match c with
  | .recordDeposit pa am bo lh => record_deposit h2 s pa am bo lh
  | .condenseCall pr den pa da t => condense s pr den pa da t
  | .submitOrderCall pr caller ts => submit_order s pr caller ts
  | .submitMatchCall pr => submit_match s pr
  | .submitSettlementCall mid sc bc so bo => submit_settlement s mid sc bc so bo
  | .cancelOrderCall c' caller => cancel_order s c' caller

/-- A successful (state-changing) transaction.  Reverted transactions
leave the state unchanged, so reachability over successful ones is the
full transition relation. -/
def StepR (h2 : Nat → Nat → Nat) (s s' : CState) : Prop :=
  ∃ c, applyCall h2 c s = .ok s'

/-- Reachability by any sequence of transactions. -/
def Reach (h2 : Nat → Nat → Nat) : CState → CState → Prop :=
  Relation.ReflTransGen (StepR h2)

/-- All match ids at or above `match_nonce` are still unwritten.  Holds of
the freshly constructed contract and is preserved by every entrypoint. -/
def NonceInv (s : CState) : Prop :=
  ∀ id, s.match_nonce ≤ id → s.matched_pairs id = MatchedPair.zero

/-! ## Witness states for the contract claims -/

/-- A throwaway concrete two-element Poseidon stand-in for instantiating
`h2`-parametric contract theorems. -/
def sHashN : Nat → Nat → Nat := fun a b => a + 2 * b + 1

/-- The all-zero contract state. -/
def zeroCState : CState :=
  { tongo_wbtc := 0, tongo_usdc := 0, accumulator_root := 0, next_leaf_index := 0,
    filled_subtrees := fun _ => 0, leaves := fun _ => 0,
    used_phantom_addrs := fun _ => false, spent_nullifiers := fun _ => false,
    order_commitments := fun _ => OrderCommitment.zero, order_counter := 0,
    matched_pairs := fun _ => MatchedPair.zero, match_nonce := 0, transferCalls := [] }

/-- A state with one recorded, unsettled match (id 0) between matched
orders 5 and 6. -/
def c3s0 : CState :=
  { zeroCState with
    tongo_wbtc := 100, tongo_usdc := 200
    order_commitments := fun c =>
      if c = 5 then ⟨9, 0, 2, 0⟩ else if c = 6 then ⟨8, 0, 2, 1⟩ else OrderCommitment.zero
    order_counter := 2
    matched_pairs := fun id => if id = 0 then ⟨5, 6, 7, false⟩ else MatchedPair.zero
    match_nonce := 1 }

/-- A state whose accumulator root is 3 and nothing spent. -/
def c4s0 : CState := { zeroCState with accumulator_root := 3 }

/-- `c4s0` after a successful `condense` spending nullifier 42. -/
def c4s1 : CState :=
  { c4s0 with spent_nullifiers := Function.update c4s0.spent_nullifiers 42 true }

/-- A state with two Active orders under commitments 5 and 6. -/
def c5s0 : CState :=
  { zeroCState with
    order_commitments := fun c =>
      if c = 5 then ⟨9, 0, 1, 0⟩ else if c = 6 then ⟨8, 0, 1, 1⟩ else OrderCommitment.zero
    order_counter := 2 }

/-! ## Claim C7 — the orchestrator's private order-terms store (`relay.ts`)

`Relay.orderSecrets` maps a commitment to the revealed private order
terms.  `_proveAndSubmit` is modelled as a pure function of the store, the
match, and the outcomes of the two external suspensions (`prove()` and
`submitter.submitMatch()`); it returns the new store and the match status
it left behind.  `_trySubmitSettlement` likewise (it never touches the
store). -/

/-- `Relay._proveAndSubmit(match)`: looks up both legs' secrets; marks the
match `failed` when either is missing, when proving fails, or when
submission fails; on a confirmed submission it deletes both legs' secrets
from the store. -/
def proveAndSubmit (store : Nat → Option Order) (m : MatchResult)
    (proveOk submitOk : Bool) : (Nat → Option Order) × MStatus :=
  match store m.buyCommitment, store m.sellCommitment with
  | some _, some _ =>
    if proveOk = false then (store, .failed)
    else if submitOk then
      (Function.update (Function.update store m.buyCommitment none) m.sellCommitment none,
        .confirmed)
    else (store, .failed)
  | _, _ => (store, .failed)

/-- `Relay._trySubmitSettlement(match)`: requires `confirmed` status and
both transfer payloads; on success the match becomes `settled`, on failure
it reverts to `confirmed`; the secrets store is never touched. -/
def trySubmitSettlement (store : Nat → Option Order) (st : MStatus)
    (hasBothPayloads settleOk : Bool) : (Nat → Option Order) × MStatus :=
  if st = .confirmed then
    if hasBothPayloads then
      if settleOk then (store, .settled) else (store, .confirmed)
    else (store, st)
  else (store, st)

/-- A secrets store holding the terms of both legs (commitments 1, 2). -/
def c7store : Nat → Option Order := fun c =>
  if c = 1 then some buyCrossEx else if c = 2 then some sellCrossEx else none

/-- A pending match between commitments 1 and 2. -/
def c7match : MatchResult := ⟨1, 2, 0, 500, 950, .pending_proof⟩

/-! ## Claim C6 — incremental insertion ≡ batch Merkle construction

Spec side (`Modelled from the spec's words for this refinement claim`):
the batch bottom-up Merkle construction over the first `n` leaves
zero-padded to full capacity `2^20`, hashing adjacent pairs level by
level.  `pairUpZ h z` is one level step (an odd tail — which never occurs
on the padded list — would pair with `z`); `paddedBatchRoot` iterates it
20 times over the padded leaf level and takes the root.  `brootL h L d`
is the equivalent top-down divide-and-conquer form at base level `L`,
used by the proofs. -/

/-- One bottom-up level: hash adjacent pairs (odd tail pairs with `z`). -/
def pairUpZ (h2 : Nat → Nat → Nat) (z : Nat) : List Nat → List Nat
  | [] => []
  | [a] => [h2 a z]
  | a :: b :: l => h2 a b :: pairUpZ h2 z l

/-- Root of the depth-`d` Merkle tree whose leaves sit at tree level `L`:
the first `ls.length` leaves are `ls`, the rest are the all-empty subtree
value `merkleZero h2 L`. -/
def brootL (h2 : Nat → Nat → Nat) (L : Nat) : Nat → List Nat → Nat
  | 0, ls => ls.headD (merkleZero h2 L)
  | d + 1, ls => h2 (brootL h2 L d (ls.take (2 ^ d))) (brootL h2 L d (ls.drop (2 ^ d)))

/-- The spec's batch construction: zero-pad the `n` leaves to capacity
`2^20` (zeroHash(0) = 0) and fold 20 pairing levels bottom-up. -/
def paddedBatchRoot (h2 : Nat → Nat → Nat) (ls : List Nat) : Nat :=
  ((pairUpZ h2 0)^[20] (ls ++ List.replicate (2 ^ 20 - ls.length) 0)).headD 0

/-- The filled-subtree invariant after `ws` has been inserted: at every
level `k` whose spine position is odd, `filled (L + k)` stores the root of
the completed left-sibling subtree (a full `2^k`-leaf slice of `ws`). -/
def fInv (h2 : Nat → Nat → Nat) (d L : Nat) (ws : List Nat) (filled : Nat → Nat) : Prop :=
  ∀ k, k < d → ws.length / 2 ^ k % 2 = 1 →
    filled (L + k) =
      brootL h2 L k ((ws.drop ((ws.length / 2 ^ k - 1) * 2 ^ k)).take (2 ^ k))

/-- Sequentially insert a list of leaves via `_insert_leaf`. -/
def insertManyLeaves (h2 : Nat → Nat → Nat) : CState → List Nat → Except String CState
  | s, [] => .ok s
  | s, l :: ls =>
    match insertLeaf h2 s l with
    | .ok s' => insertManyLeaves h2 s' ls
    | .error e => .error e

/-- The contract's post-constructor accumulator state: root is the
zero-tree root (`_zero_tree_root`), no leaves, zeroed storage. -/
def initialTreeState (h2 : Nat → Nat → Nat) : CState :=
  { zeroCState with accumulator_root := merkleZero h2 20 }

/-! ## OrderBook lemmas -/

namespace OrderBook

theorem find?_key_filter_ne (l : List (Nat × Order)) (c c' : Nat) (h : c' ≠ c) :
    (l.filter (fun p => p.1 ≠ c)).find? (fun p => p.1 = c') =
      l.find? (fun p => p.1 = c') := by
  induction l with
  | nil => rfl
  | cons q l ih =>
    by_cases hq : q.1 = c
    · have h1 : (decide (q.1 ≠ c)) = false := by simp [hq]
      have h2 : (decide (q.1 = c')) = false := by
        simp only [decide_eq_false_iff_not]
        intro hh; exact h (hh ▸ hq)
      rw [List.filter_cons, h1, if_neg (by simp), List.find?_cons, h2]
      exact ih
    · have h1 : (decide (q.1 ≠ c)) = true := by simp [hq]
      rw [List.filter_cons, h1, if_pos rfl, List.find?_cons, List.find?_cons]
      cases hq' : decide (q.1 = c')
      · exact ih
      · rfl

theorem lookup_remove_self (b : OrderBook) (c : Nat) : (b.remove c).lookup c = none := by
  unfold remove
  cases hc : b.lookup c with
  | none => simpa [lookup] using hc
  | some o =>
    show Option.map _ (List.find? _ (List.filter _ b.orders)) = none
    have hnone : List.find? (fun p => decide (p.1 = c))
        (List.filter (fun p => decide (p.1 ≠ c)) b.orders) = none := by
      rw [List.find?_eq_none]
      intro p hp
      have := List.of_mem_filter hp
      simpa using this
    rw [hnone]
    rfl

theorem lookup_remove_of_ne (b : OrderBook) (c c' : Nat) (h : c' ≠ c) :
    (b.remove c).lookup c' = b.lookup c' := by
  unfold remove
  cases hc : b.lookup c with
  | none => rfl
  | some o =>
    show Option.map _ (List.find? _ (List.filter _ b.orders)) = b.lookup c'
    rw [find?_key_filter_ne b.orders c c' h]
    rfl

theorem length_filter_key (l : List (Nat × Order)) (c : Nat)
    (hnd : (l.map Prod.fst).Nodup) (hin : ∃ p ∈ l, p.1 = c) :
    (l.filter (fun p => p.1 ≠ c)).length + 1 = l.length := by
  induction l with
  | nil => simp at hin
  | cons q l ih =>
    simp only [List.map_cons, List.nodup_cons] at hnd
    by_cases hq : q.1 = c
    · have h1 : (decide (q.1 ≠ c)) = false := by simp [hq]
      rw [List.filter_cons, h1, if_neg (by simp)]
      have hfe : l.filter (fun p => decide (p.1 ≠ c)) = l := by
        rw [List.filter_eq_self]
        intro p hp
        simp only [decide_eq_true_eq]
        intro hpc
        apply hnd.1
        have := List.mem_map_of_mem Prod.fst hp
        rwa [hpc, ← hq] at this
      rw [hfe, List.length_cons]
    · obtain ⟨p, hp, hpc⟩ := hin
      rcases List.mem_cons.mp hp with rfl | hp'
      · exact absurd hpc hq
      · have h1 : (decide (q.1 ≠ c)) = true := by simp [hq]
        rw [List.filter_cons, h1, if_pos rfl]
        simp only [List.length_cons]
        rw [← ih hnd.2 ⟨p, hp', hpc⟩]

theorem size_remove (b : OrderBook) (c : Nat) (o : Order)
    (hnd : (b.orders.map Prod.fst).Nodup) (h : b.lookup c = some o) :
    (b.remove c).size + 1 = b.size := by
  unfold remove
  rw [h]
  show (b.orders.filter (fun p => p.1 ≠ c)).length + 1 = b.orders.length
  have hin : ∃ p ∈ b.orders, p.1 = c := by
    simp only [lookup, Option.map_eq_some'] at h
    obtain ⟨p, hp, _⟩ := h
    exact ⟨p, List.mem_of_find?_eq_some hp, by
      have := List.find?_some hp; simpa using this⟩
  exact length_filter_key b.orders c hnd hin

theorem nodup_keys_remove (b : OrderBook) (c : Nat)
    (hnd : (b.orders.map Prod.fst).Nodup) :
    ((b.remove c).orders.map Prod.fst).Nodup := by
  unfold remove
  cases hc : b.lookup c with
  | none => exact hnd
  | some o =>
    exact ((List.filter_sublist _).map Prod.fst).nodup hnd

theorem mem_of_bestBuy (b : OrderBook) (o : Order) (h : b.bestBuy = some o) : o ∈ b.buys := by
  unfold bestBuy at h
  cases hb : b.buys with
  | nil => rw [hb] at h; simp at h
  | cons x l => rw [hb] at h; simp at h; exact h ▸ List.mem_cons_self x l

theorem mem_of_bestSell (b : OrderBook) (o : Order) (h : b.bestSell = some o) : o ∈ b.sells := by
  unfold bestSell at h
  cases hb : b.sells with
  | nil => rw [hb] at h; simp at h
  | cons x l => rw [hb] at h; simp at h; exact h ▸ List.mem_cons_self x l

/-- In a well-formed book, the best buy and best sell are distinct map
entries (their directions differ). -/
theorem bestBuy_ne_bestSell (b : OrderBook) (buy sell : Order) (hwf : b.WF)
    (hb : b.bestBuy = some buy) (hs : b.bestSell = some sell) :
    buy.commitment ≠ sell.commitment := by
  intro heq
  obtain ⟨_, _, hbuys, hsells⟩ := hwf
  have h1 := hbuys buy (mem_of_bestBuy b buy hb)
  have h2 := hsells sell (mem_of_bestSell b sell hs)
  rw [heq] at h1
  rw [h1.1] at h2
  have : buy = sell := by injection h2.1
  rw [this] at h1
  rw [h1.2] at h2
  exact absurd h2.2 (by norm_num)

end OrderBook

/-! ## Claim C1 — settlement terms of a crossing match -/

/-- **C1.** Whenever `match()` pops a crossing pair (best buy price ≥ best
sell price) whose price sum is even and whose settlement amount is nonzero,
the emitted `MatchResult` carries `settlementAmount = min(buyAmount,
sellAmount)` and a `settlementPrice` that is the exact integer midpoint
(`2 * settlementPrice = buyPrice + sellPrice`), and both source orders are
gone from the book.  In particular, on the book holding exactly
buy=(1000, 500) and sell=(900, 600), `match()` yields exactly one result
with `settlementAmount = 500`, `settlementPrice = 950`, leaving the book
empty. -/
theorem c1_match_settlement_terms (sHash : Int → Int → Nat) :
    (∀ (b : OrderBook) (buy sell : Order),
      b.bestBuy = some buy → b.bestSell = some sell →
      sell.price ≤ buy.price →
      Int.tmod (buy.price + sell.price) 2 = 0 →
      min buy.amount sell.amount ≠ 0 →
      ∃ r b₂, matchStep sHash b = some (some r, b₂) ∧
        r.settlementAmount = min buy.amount sell.amount ∧
        2 * r.settlementPrice = buy.price + sell.price ∧
        r.buyCommitment = buy.commitment ∧
        r.sellCommitment = sell.commitment ∧
        b₂.lookup buy.commitment = none ∧
        b₂.lookup sell.commitment = none) ∧
    matchRun sHash bookCross =
      ([{ buyCommitment := 1, sellCommitment := 2,
          settlementCommitment := sHash 500 950,
          settlementAmount := 500, settlementPrice := 950,
          status := .pending_proof }],
       { orders := [], buys := [], sells := [] }) := by
  constructor
  · intro b buy sell hb hs hle heven hmin
    have hamt : (if buy.amount < sell.amount then buy.amount else sell.amount) =
        min buy.amount sell.amount := by
      by_cases hab : buy.amount < sell.amount
      · simp [hab, min_eq_left hab.le]
      · simp [hab, min_eq_right (le_of_not_lt hab)]
    have hstep : matchStep sHash b =
        some (some
          { buyCommitment := buy.commitment
            sellCommitment := sell.commitment
            settlementCommitment := sHash (min buy.amount sell.amount)
              (Int.tdiv (buy.price + sell.price) 2)
            settlementAmount := min buy.amount sell.amount
            settlementPrice := Int.tdiv (buy.price + sell.price) 2
            status := .pending_proof },
          (b.remove buy.commitment).remove sell.commitment) := by
      simp only [matchStep, hb, hs]
      rw [if_neg (not_lt.mpr hle), hamt, if_neg (by simpa using heven), if_neg hmin]
    refine ⟨_, _, hstep, rfl, ?_, rfl, rfl, ?_, ?_⟩
    · show 2 * Int.tdiv (buy.price + sell.price) 2 = buy.price + sell.price
      have := Int.tdiv_add_tmod (buy.price + sell.price) 2
      rw [heven] at this
      simpa using this
    · by_cases hcc : buy.commitment = sell.commitment
      · rw [hcc]; exact OrderBook.lookup_remove_self _ _
      · rw [OrderBook.lookup_remove_of_ne _ _ _ hcc]
        exact OrderBook.lookup_remove_self _ _
    · exact OrderBook.lookup_remove_self _ _
  · rfl

/-! ## Claim C2 — odd price sum: skip the pair, drop the older order -/

/-- **C2.** When the popped pair crosses but `buyPrice + sellPrice` is odd,
`match()` emits no result for the pair and removes exactly one of the two
orders — one whose `receivedAt` is ≤ the other's (the older order; on a
tie the sell is dropped) — and the loop continues.  In particular, with
only buy=(101, …, receivedAt=5) and sell=(100, …, receivedAt=9) in the
book, `match()` returns no result and the book ends with exactly one fewer
order (the sell remains). -/
theorem c2_odd_sum_drops_older (sHash : Int → Int → Nat) :
    (∀ (b : OrderBook) (buy sell : Order), b.WF →
      b.bestBuy = some buy → b.bestSell = some sell →
      sell.price ≤ buy.price →
      Int.tmod (buy.price + sell.price) 2 ≠ 0 →
      ∃ rem keep : Order,
        (rem = buy ∧ keep = sell ∨ rem = sell ∧ keep = buy) ∧
        rem.receivedAt ≤ keep.receivedAt ∧
        matchStep sHash b = some (none, b.remove rem.commitment) ∧
        (b.remove rem.commitment).lookup rem.commitment = none ∧
        (b.remove rem.commitment).lookup keep.commitment = some keep ∧
        (b.remove rem.commitment).size + 1 = b.size) ∧
    matchRun sHash bookOdd =
      ([], { orders := [(2, sellOddEx)], buys := [], sells := [sellOddEx] }) := by
  constructor
  · intro b buy sell hwf hb hs hle hodd
    have hbuy := (hwf.2.2.1 buy (OrderBook.mem_of_bestBuy b buy hb)).1
    have hsell := (hwf.2.2.2 sell (OrderBook.mem_of_bestSell b sell hs)).1
    have hne : buy.commitment ≠ sell.commitment :=
      OrderBook.bestBuy_ne_bestSell b buy sell hwf hb hs
    have hstep0 : matchStep sHash b =
        some (none, if buy.receivedAt < sell.receivedAt
                    then b.remove buy.commitment else b.remove sell.commitment) := by
      simp only [matchStep, hb, hs]
      rw [if_neg (not_lt.mpr hle), if_pos hodd]
    by_cases hrt : buy.receivedAt < sell.receivedAt
    · refine ⟨buy, sell, .inl ⟨rfl, rfl⟩, hrt.le, ?_, ?_, ?_, ?_⟩
      · rw [hstep0, if_pos hrt]
      · exact OrderBook.lookup_remove_self _ _
      · rw [OrderBook.lookup_remove_of_ne _ _ _ (Ne.symm hne)]; exact hsell
      · exact OrderBook.size_remove b buy.commitment buy hwf.1 hbuy
    · refine ⟨sell, buy, .inr ⟨rfl, rfl⟩, le_of_not_lt hrt, ?_, ?_, ?_, ?_⟩
      · rw [hstep0, if_neg hrt]
      · exact OrderBook.lookup_remove_self _ _
      · rw [OrderBook.lookup_remove_of_ne _ _ _ hne]; exact hbuy
      · exact OrderBook.size_remove b sell.commitment sell hwf.1 hsell
  · rfl

/-! ## Claim C10 — the matching loop always makes progress -/

/-- **C10.** Each iteration of the greedy loop of `MatchingEngine.match()`
either exits (one side of the book is empty, or the spread is open) or
strictly shrinks the book: the odd-price-sum branch removes one order,
and the zero-settlement-amount and successful-match branches remove two.
Hence `match()` terminates on every finite (well-formed) book. -/
theorem c10_match_terminates (sHash : Int → Int → Nat) :
    (∀ b : OrderBook, matchStep sHash b = none ↔
      (b.bestBuy = none ∨ b.bestSell = none ∨
        ∃ buy sell, b.bestBuy = some buy ∧ b.bestSell = some sell ∧
          buy.price < sell.price)) ∧
    (∀ (b : OrderBook) (r : Option MatchResult) (b' : OrderBook), b.WF →
      matchStep sHash b = some (r, b') →
      b'.size < b.size ∧
      ∃ buy sell, b.bestBuy = some buy ∧ b.bestSell = some sell ∧
        sell.price ≤ buy.price ∧
        ((Int.tmod (buy.price + sell.price) 2 ≠ 0 ∧ r = none ∧ b'.size + 1 = b.size) ∨
         (Int.tmod (buy.price + sell.price) 2 = 0 ∧ b'.size + 2 = b.size))) := by
  constructor
  · intro b
    constructor
    · intro h
      cases hb : b.bestBuy with
      | none => exact .inl rfl
      | some buy =>
        cases hs : b.bestSell with
        | none => exact .inr (.inl rfl)
        | some sell =>
          refine .inr (.inr ⟨buy, sell, rfl, rfl, ?_⟩)
          by_contra hlt
          simp only [matchStep, hb, hs, if_neg hlt] at h
          split_ifs at h
    · intro h
      rcases h with h | h | ⟨buy, sell, hb, hs, hlt⟩
      · simp [matchStep, h]
      · cases hb : b.bestBuy <;> simp [matchStep, hb, h]
      · simp [matchStep, hb, hs, if_pos hlt]
  · intro b r b' hwf hstep
    cases hb : b.bestBuy with
    | none => simp [matchStep, hb] at hstep
    | some buy =>
    cases hs : b.bestSell with
    | none => simp [matchStep, hb, hs] at hstep
    | some sell =>
    have hbuy := (hwf.2.2.1 buy (OrderBook.mem_of_bestBuy b buy hb)).1
    have hsell := (hwf.2.2.2 sell (OrderBook.mem_of_bestSell b sell hs)).1
    have hne : buy.commitment ≠ sell.commitment :=
      OrderBook.bestBuy_ne_bestSell b buy sell hwf hb hs
    simp only [matchStep, hb, hs] at hstep
    by_cases hlt : buy.price < sell.price
    · rw [if_pos hlt] at hstep; cases hstep
    rw [if_neg hlt] at hstep
    have hle := not_lt.mp hlt
    -- removal of both orders shrinks the book by two
    have hdrop2 : ((b.remove buy.commitment).remove sell.commitment).size + 2 = b.size := by
      have h1 : (b.remove buy.commitment).size + 1 = b.size :=
        OrderBook.size_remove b buy.commitment buy hwf.1 hbuy
      have h2 : ((b.remove buy.commitment).remove sell.commitment).size + 1 =
          (b.remove buy.commitment).size := by
        refine OrderBook.size_remove _ sell.commitment sell ?_ ?_
        · exact OrderBook.nodup_keys_remove b buy.commitment hwf.1
        · rw [OrderBook.lookup_remove_of_ne _ _ _ (Ne.symm hne)]; exact hsell
      omega
    by_cases hodd : Int.tmod (buy.price + sell.price) 2 ≠ 0
    · rw [if_pos hodd] at hstep
      injection hstep with hstep
      injection hstep with hr hb'
      have hsz : b'.size + 1 = b.size := by
        by_cases hrt : buy.receivedAt < sell.receivedAt
        · rw [← hb', if_pos hrt]
          exact OrderBook.size_remove b buy.commitment buy hwf.1 hbuy
        · rw [← hb', if_neg hrt]
          exact OrderBook.size_remove b sell.commitment sell hwf.1 hsell
      exact ⟨by omega, buy, sell, rfl, rfl, hle, .inl ⟨hodd, hr.symm, hsz⟩⟩
    · rw [if_neg hodd] at hstep
      push_neg at hodd
      by_cases hz : (if buy.amount < sell.amount then buy.amount else sell.amount) = 0
      · rw [if_pos hz] at hstep
        injection hstep with hstep
        injection hstep with hr hb'
        rw [← hb']
        exact ⟨by omega, buy, sell, rfl, rfl, hle, .inr ⟨hodd, hdrop2⟩⟩
      · rw [if_neg hz] at hstep
        injection hstep with hstep
        injection hstep with hr hb'
        rw [← hb']
        exact ⟨by omega, buy, sell, rfl, rfl, hle, .inr ⟨hodd, hdrop2⟩⟩

/-! ## Claim C8 — `OrderBook.add` validation -/

theorem find?_append_of_none {p : Nat × Order → Bool} (l₁ l₂ : List (Nat × Order))
    (h : l₁.find? p = none) : (l₁ ++ l₂).find? p = l₂.find? p := by
  induction l₁ with
  | nil => rfl
  | cons q l ih =>
    rw [List.cons_append, List.find?_cons]
    rw [List.find?_cons] at h
    cases hq : p q
    · rw [hq] at h; exact ih h
    · rw [hq] at h; cases h

/-- **C8.** `OrderBook.add(order)` returns an error exactly when the
recomputed commitment hash over the revealed fields differs from
`order.commitment`, or the commitment is already in the book, or
`amount ≤ 0`, or `price ≤ 0`; an order passing all four checks is accepted
and afterwards retrievable from the book by its commitment. -/
theorem c8_orderbook_add_checks (pcommit : Nat → Int → Int → Int → Nat) :
    (∀ (b : OrderBook) (o : Order),
      (∃ e, OrderBook.add pcommit b o = .error e) ↔
        (pcommit o.direction o.price o.amount o.nonce ≠ o.commitment ∨
         (b.lookup o.commitment).isSome = true ∨ o.amount ≤ 0 ∨ o.price ≤ 0)) ∧
    (∀ (b : OrderBook) (o : Order),
      pcommit o.direction o.price o.amount o.nonce = o.commitment →
      b.lookup o.commitment = none → 0 < o.amount → 0 < o.price →
      ∃ b', OrderBook.add pcommit b o = .ok b' ∧
        b'.lookup o.commitment = some o) := by
  constructor
  · intro b o
    constructor
    · rintro ⟨e, he⟩
      simp only [OrderBook.add] at he
      split_ifs at he with h1 h2 h3 h4
      · exact .inl h1
      · exact .inr (.inl h2)
      · exact .inr (.inr (.inl h3))
      · exact .inr (.inr (.inr h4))
    · intro h
      simp only [OrderBook.add]
      split_ifs with h1 h2 h3 h4
      · exact ⟨_, rfl⟩
      · exact ⟨_, rfl⟩
      · exact ⟨_, rfl⟩
      · exact ⟨_, rfl⟩
      · rcases h with h | h | h | h
        · exact absurd h h1
        · exact absurd h (by simpa using h2)
        · exact absurd h h3
        · exact absurd h h4
  · intro b o hc hl ha hp
    have hok : OrderBook.add pcommit b o = .ok
        { orders := b.orders ++ [(o.commitment, o)]
          buys := if o.direction = 0
                  then List.insertionSort OrderBook.buyLE (b.buys ++ [o]) else b.buys
          sells := if o.direction = 0
                   then b.sells else List.insertionSort OrderBook.sellLE (b.sells ++ [o]) } := by
      simp only [OrderBook.add]
      rw [if_neg (not_ne_iff.mpr hc), if_neg (by simp [hl]),
        if_neg (not_le.mpr ha), if_neg (not_le.mpr hp)]
    refine ⟨_, hok, ?_⟩
    unfold OrderBook.lookup
    have hn : b.orders.find? (fun p => p.1 = o.commitment) = none := by
      unfold OrderBook.lookup at hl
      cases hf : b.orders.find? (fun p => p.1 = o.commitment) with
      | none => rfl
      | some q => rw [hf] at hl; cases hl
    show Option.map _ ((b.orders ++ [(o.commitment, o)]).find? _) = some o
    rw [find?_append_of_none _ _ hn]
    simp

theorem map_pubProj_congr : ∀ (l₁ l₂ : List (Nat × Order)),
    List.Forall₂ samePublic l₁ l₂ → l₁.map pubProj = l₂.map pubProj := by
  intro l₁ l₂ hf
  induction hf with
  | nil => rfl
  | cons hpq _ ih =>
    obtain ⟨_, h1, h2, h3, h4⟩ := hpq
    simp only [List.map_cons, ih, List.cons.injEq, and_true]
    simp [pubProj, h1, h2, h3, h4]

/-- **C9.** `publicOrders()` exposes, per order, only the commitment,
direction, trader address and received-at timestamp, and is independent of
every order's price, amount and nonce: two books whose order maps agree
entrywise on the non-sensitive fields produce identical public views. -/
theorem c9_public_view_independent (b₁ b₂ : OrderBook)
    (h : List.Forall₂ samePublic b₁.orders b₂.orders) :
    b₁.publicOrders = b₂.publicOrders :=
  map_pubProj_congr b₁.orders b₂.orders h

theorem c1_match_settlement_terms_witness :
    ∃ r b₂, matchStep sHash0 bookCross = some (some r, b₂) ∧
      r.settlementAmount = min buyCrossEx.amount sellCrossEx.amount ∧
      2 * r.settlementPrice = buyCrossEx.price + sellCrossEx.price ∧
      r.buyCommitment = buyCrossEx.commitment ∧
      r.sellCommitment = sellCrossEx.commitment ∧
      b₂.lookup buyCrossEx.commitment = none ∧
      b₂.lookup sellCrossEx.commitment = none :=
  (c1_match_settlement_terms sHash0).1 bookCross buyCrossEx sellCrossEx
    rfl rfl (by decide) (by decide) (by decide)

theorem c2_odd_sum_drops_older_witness :
    ∃ rem keep : Order,
      (rem = buyOddEx ∧ keep = sellOddEx ∨ rem = sellOddEx ∧ keep = buyOddEx) ∧
      rem.receivedAt ≤ keep.receivedAt ∧
      matchStep sHash0 bookOdd = some (none, bookOdd.remove rem.commitment) ∧
      (bookOdd.remove rem.commitment).lookup rem.commitment = none ∧
      (bookOdd.remove rem.commitment).lookup keep.commitment = some keep ∧
      (bookOdd.remove rem.commitment).size + 1 = bookOdd.size :=
  (c2_odd_sum_drops_older sHash0).1 bookOdd buyOddEx sellOddEx
    (by decide) rfl rfl (by decide) (by decide)

theorem c10_match_terminates_witness :
    (bookOdd.remove 1).size < bookOdd.size ∧
    ∃ buy sell, bookOdd.bestBuy = some buy ∧ bookOdd.bestSell = some sell ∧
      sell.price ≤ buy.price ∧
      ((Int.tmod (buy.price + sell.price) 2 ≠ 0 ∧ (none : Option MatchResult) = none ∧
          (bookOdd.remove 1).size + 1 = bookOdd.size) ∨
       (Int.tmod (buy.price + sell.price) 2 = 0 ∧ (bookOdd.remove 1).size + 2 = bookOdd.size)) :=
  (c10_match_terminates sHash0).2 bookOdd none (bookOdd.remove 1) (by decide) (by decide)

theorem c8_orderbook_add_checks_witness :
    ∃ b', OrderBook.add (fun _ _ _ _ => 5) ⟨[], [], []⟩ buyCrossEx2 = .ok b' ∧
      b'.lookup buyCrossEx2.commitment = some buyCrossEx2 :=
  (c8_orderbook_add_checks (fun _ _ _ _ => 5)).2 ⟨[], [], []⟩ buyCrossEx2
    rfl rfl (by decide) (by decide)

/-! ### Entrypoint characterizations -/

theorem record_deposit_ok_fields (h2 : Nat → Nat → Nat) (s : CState)
    (pa am : Nat) (bo : Bool) (lh : Nat) (s' : CState)
    (h : record_deposit h2 s pa am bo lh = .ok s') :
    s'.spent_nullifiers = s.spent_nullifiers ∧ s'.matched_pairs = s.matched_pairs ∧
      s'.match_nonce = s.match_nonce ∧ s'.order_commitments = s.order_commitments := by
  simp only [record_deposit, insertLeaf] at h
  split_ifs at h
  rw [Except.ok.injEq] at h
  subst h
  exact ⟨rfl, rfl, rfl, rfl⟩

theorem condense_ok (s : CState) (pr : Option (List Nat)) (den pa : Nat)
    (da : Option Nat) (t : Bool) (s' : CState)
    (h : condense s pr den pa da t = .ok s') :
    ∃ inputs pi3, pr = some inputs ∧ inputs[3]? = some pi3 ∧ pi3 < FELT_P ∧
      s.spent_nullifiers pi3 = false ∧ validDenomination den ∧
      (∃ pi0, inputs[0]? = some pi0 ∧ pi0 = s.accumulator_root) ∧
      s' = { s with spent_nullifiers := Function.update s.spent_nullifiers pi3 true } := by
  by_cases hd : validDenomination den
  case neg =>
    simp only [condense, if_pos hd] at h
    exact Except.noConfusion h
  cases pr with
  | none =>
    simp only [condense, if_neg (not_not_intro hd)] at h
    exact Except.noConfusion h
  | some inputs =>
  cases h0 : inputs[0]? with
  | none =>
    simp only [condense, if_neg (not_not_intro hd), h0] at h
    exact Except.noConfusion h
  | some pi0 =>
  by_cases hr : pi0 ≠ s.accumulator_root
  case pos =>
    simp only [condense, if_neg (not_not_intro hd), h0, if_pos hr] at h
    exact Except.noConfusion h
  cases h2' : inputs[2]? with
  | none =>
    simp only [condense, if_neg (not_not_intro hd), h0, if_neg hr, h2'] at h
    exact Except.noConfusion h
  | some pi2 =>
  by_cases hden : pi2 ≠ den % 2 ^ 128
  case pos =>
    simp only [condense, if_neg (not_not_intro hd), h0, if_neg hr, h2', if_pos hden] at h
    exact Except.noConfusion h
  cases h3 : inputs[3]? with
  | none =>
    simp only [condense, if_neg (not_not_intro hd), h0, if_neg hr, h2', if_neg hden, h3] at h
    exact Except.noConfusion h
  | some pi3 =>
  by_cases hfelt : FELT_P ≤ pi3
  case pos =>
    simp only [condense, if_neg (not_not_intro hd), h0, if_neg hr, h2', if_neg hden, h3,
      if_pos hfelt] at h
    exact Except.noConfusion h
  by_cases hspent : s.spent_nullifiers pi3 = true
  case pos =>
    simp only [condense, if_neg (not_not_intro hd), h0, if_neg hr, h2', if_neg hden, h3,
      if_neg hfelt, if_pos hspent] at h
    exact Except.noConfusion h
  cases da with
  | none =>
    simp only [condense, if_neg (not_not_intro hd), h0, if_neg hr, h2', if_neg hden, h3,
      if_neg hfelt, if_neg hspent] at h
    exact Except.noConfusion h
  | some dav =>
  by_cases haddr : dav ≠ pa
  case pos =>
    simp only [condense, if_neg (not_not_intro hd), h0, if_neg hr, h2', if_neg hden, h3,
      if_neg hfelt, if_neg hspent, if_pos haddr] at h
    exact Except.noConfusion h
  by_cases ht : t = true
  case neg =>
    simp only [condense, if_neg (not_not_intro hd), h0, if_neg hr, h2', if_neg hden, h3,
      if_neg hfelt, if_neg hspent, if_neg haddr, if_pos ht] at h
    exact Except.noConfusion h
  simp only [condense, if_neg (not_not_intro hd), h0, if_neg hr, h2', if_neg hden, h3,
    if_neg hfelt, if_neg hspent, if_neg haddr,
    if_neg (not_not_intro ht), Except.ok.injEq] at h
  exact ⟨inputs, pi3, rfl, h3, not_le.mp hfelt, Bool.not_eq_true _ ▸ hspent, hd,
    ⟨pi0, h0, not_ne_iff.mp hr⟩, h.symm⟩

theorem condense_fails_of_bad_denomination (s : CState) (pr : Option (List Nat))
    (den pa : Nat) (da : Option Nat) (t : Bool)
    (h : ¬ validDenomination den) :
    condense s pr den pa da t = .error "invalid denomination" := by
  unfold condense
  rw [if_pos h]

theorem condense_fails_of_stale_root (s : CState) (inputs : List Nat)
    (den pa : Nat) (da : Option Nat) (t : Bool) (pi0 : Nat)
    (h0 : inputs[0]? = some pi0) (h : pi0 ≠ s.accumulator_root) :
    ∃ e, condense s (some inputs) den pa da t = .error e := by
  by_cases hd : validDenomination den
  case neg => exact ⟨"invalid denomination", by simp only [condense, if_pos hd]⟩
  exact ⟨"wrong accumulator root", by
    simp only [condense, if_neg (not_not_intro hd), h0, if_pos h]⟩

theorem condense_fails_of_spent_nullifier (s : CState) (pr : Option (List Nat))
    (den pa : Nat) (da : Option Nat) (t : Bool) (n : Nat)
    (hspent : s.spent_nullifiers n = true)
    (hpr : pr = none ∨ ∃ inputs, pr = some inputs ∧ inputs[3]? = some n) :
    ∃ e, condense s pr den pa da t = .error e := by
  cases hok : condense s pr den pa da t with
  | error e => exact ⟨e, rfl⟩
  | ok s' =>
    obtain ⟨inputs, pi3, hpr', h3, _, hunspent, _⟩ := condense_ok s pr den pa da t s' hok
    rcases hpr with hpr | ⟨inputs', hpr2, h3'⟩
    · rw [hpr] at hpr'; exact Option.noConfusion hpr'
    · rw [hpr2] at hpr'
      have : inputs' = inputs := by injection hpr'
      subst this
      rw [h3] at h3'
      have : n = pi3 := by injection h3'; omega
      subst this
      rw [hspent] at hunspent
      exact Bool.noConfusion hunspent

theorem submit_order_ok_fields (s : CState) (pr : Option (List Nat))
    (caller ts : Nat) (s' : CState) (h : submit_order s pr caller ts = .ok s') :
    s'.spent_nullifiers = s.spent_nullifiers ∧ s'.matched_pairs = s.matched_pairs ∧
      s'.match_nonce = s.match_nonce := by
  cases pr with
  | none => exact Except.noConfusion h
  | some inputs =>
  cases h0 : inputs[0]? with
  | none =>
    simp only [submit_order, h0] at h
    exact Except.noConfusion h
  | some pi0 =>
  cases h1 : inputs[1]? with
  | none =>
    simp only [submit_order, h0, h1] at h
    exact Except.noConfusion h
  | some pi1 =>
    simp only [submit_order, h0, h1] at h
    split_ifs at h
    rw [Except.ok.injEq] at h
    subst h
    exact ⟨rfl, rfl, rfl⟩

theorem submit_match_ok (s : CState) (pr : Option (List Nat)) (s' : CState)
    (h : submit_match s pr = .ok s') :
    ∃ inputs pi0 pi1 pi2, pr = some inputs ∧
      inputs[0]? = some pi0 ∧ inputs[1]? = some pi1 ∧ inputs[2]? = some pi2 ∧
      pi0 < FELT_P ∧ pi1 < FELT_P ∧ pi2 < FELT_P ∧
      (s.order_commitments pi0).trader ≠ 0 ∧ (s.order_commitments pi0).status = 1 ∧
      (s.order_commitments pi1).trader ≠ 0 ∧ (s.order_commitments pi1).status = 1 ∧
      s.match_nonce + 1 < U64_MOD ∧
      s' = { s with
        matched_pairs := Function.update s.matched_pairs s.match_nonce
          { buy_commitment := pi0, sell_commitment := pi1,
            settlement_commitment := pi2, settled := false }
        match_nonce := s.match_nonce + 1
        order_commitments :=
          Function.update
            (Function.update s.order_commitments pi0
              { s.order_commitments pi0 with status := 2 })
            pi1 { s.order_commitments pi1 with status := 2 } } := by
  cases pr with
  | none => exact Except.noConfusion h
  | some inputs =>
  cases h0 : inputs[0]? with
  | none =>
    simp only [submit_match, h0] at h
    exact Except.noConfusion h
  | some pi0 =>
  cases h1 : inputs[1]? with
  | none =>
    simp only [submit_match, h0, h1] at h
    exact Except.noConfusion h
  | some pi1 =>
  cases h2' : inputs[2]? with
  | none =>
    simp only [submit_match, h0, h1, h2'] at h
    exact Except.noConfusion h
  | some pi2 =>
    simp only [submit_match, h0, h1, h2'] at h
    split_ifs at h with hfelt hbt hbs hst hss hovf
    push_neg at hfelt
    rw [Except.ok.injEq] at h
    exact ⟨inputs, pi0, pi1, pi2, rfl, h0, h1, h2', hfelt.1, hfelt.2.1, hfelt.2.2,
      hbt, not_ne_iff.mp hbs, hst, not_ne_iff.mp hss, not_le.mp hovf, h.symm⟩

theorem submit_settlement_ok (s : CState) (mid : Nat) (sc bc : List Nat)
    (so bo : Bool) (s' : CState)
    (h : submit_settlement s mid sc bc so bo = .ok s') :
    (s.matched_pairs mid).buy_commitment ≠ 0 ∧
    (s.matched_pairs mid).settled = false ∧ so = true ∧ bo = true ∧
    s' = { s with
      transferCalls := s.transferCalls ++
        [(s.tongo_wbtc, sc), (s.tongo_usdc, bc)]
      matched_pairs := Function.update s.matched_pairs mid
        { s.matched_pairs mid with settled := true }
      order_commitments :=
        Function.update
          (Function.update s.order_commitments (s.matched_pairs mid).buy_commitment
            { s.order_commitments (s.matched_pairs mid).buy_commitment with status := 3 })
          (s.matched_pairs mid).sell_commitment
          { s.order_commitments (s.matched_pairs mid).sell_commitment with status := 3 } } := by
  simp only [submit_settlement] at h
  by_cases hb0 : (s.matched_pairs mid).buy_commitment = 0
  · rw [if_pos hb0] at h; exact Except.noConfusion h
  rw [if_neg hb0] at h
  by_cases hsd : (s.matched_pairs mid).settled = true
  · rw [if_pos hsd] at h; exact Except.noConfusion h
  rw [if_neg hsd] at h
  cases so
  · rw [if_pos (by simp)] at h; exact Except.noConfusion h
  rw [if_neg (by simp)] at h
  cases bo
  · rw [if_pos (by simp)] at h; exact Except.noConfusion h
  rw [if_neg (by simp), Except.ok.injEq] at h
  exact ⟨hb0, by simpa using hsd, rfl, rfl, h.symm⟩

theorem cancel_order_ok_fields (s : CState) (c caller : Nat) (s' : CState)
    (h : cancel_order s c caller = .ok s') :
    s'.spent_nullifiers = s.spent_nullifiers ∧ s'.matched_pairs = s.matched_pairs ∧
      s'.match_nonce = s.match_nonce := by
  simp only [cancel_order] at h
  split_ifs at h
  rw [Except.ok.injEq] at h
  subst h
  exact ⟨rfl, rfl, rfl⟩

/-! ### Invariant preservation across transactions -/

theorem stepR_invariants (h2 : Nat → Nat → Nat) (s s' : CState)
    (hstep : StepR h2 s s') :
    (∀ n, s.spent_nullifiers n = true → s'.spent_nullifiers n = true) ∧
    (NonceInv s → NonceInv s') ∧
    (NonceInv s → ∀ mid, (s.matched_pairs mid).settled = true →
      (s'.matched_pairs mid).settled = true) := by
  obtain ⟨c, hc⟩ := hstep
  cases c with
  | recordDeposit pa am bo lh =>
    obtain ⟨hsp, hmp, hmn, _⟩ := record_deposit_ok_fields h2 s pa am bo lh s' hc
    refine ⟨fun n h => by rw [hsp]; exact h, fun hni id hid => ?_,
      fun _ mid h => by rw [hmp]; exact h⟩
    rw [hmp]
    exact hni id (hmn ▸ hid)
  | condenseCall pr den pa da t =>
    obtain ⟨inputs, pi3, _, _, _, _, _, _, hs'⟩ := condense_ok s pr den pa da t s' hc
    subst hs'
    refine ⟨fun n h => ?_, fun hni id hid => hni id hid, fun _ mid h => h⟩
    show Function.update s.spent_nullifiers pi3 true n = true
    rcases eq_or_ne n pi3 with rfl | hne
    · exact Function.update_same n true s.spent_nullifiers
    · rw [Function.update_noteq hne]
      exact h
  | submitOrderCall pr caller ts =>
    obtain ⟨hsp, hmp, hmn⟩ := submit_order_ok_fields s pr caller ts s' hc
    refine ⟨fun n h => by rw [hsp]; exact h, fun hni id hid => ?_,
      fun _ mid h => by rw [hmp]; exact h⟩
    rw [hmp]
    exact hni id (hmn ▸ hid)
  | submitMatchCall pr =>
    obtain ⟨inputs, pi0, pi1, pi2, _, _, _, _, _, _, _, _, _, _, _, _, hs'⟩ :=
      submit_match_ok s pr s' hc
    subst hs'
    refine ⟨fun n h => h, fun hni id hid => ?_, fun hni mid h => ?_⟩
    · have hid' : s.match_nonce + 1 ≤ id := hid
      show Function.update s.matched_pairs s.match_nonce _ id = MatchedPair.zero
      rw [Function.update_noteq (by omega : id ≠ s.match_nonce)]
      exact hni id (by omega)
    · have hlt : mid < s.match_nonce := by
        by_contra hge
        rw [hni mid (le_of_not_lt hge)] at h
        exact Bool.noConfusion h
      show (Function.update s.matched_pairs s.match_nonce _ mid).settled = true
      rw [Function.update_noteq (by omega : mid ≠ s.match_nonce)]
      exact h
  | submitSettlementCall mid' scd bcd so bo =>
    obtain ⟨hb0, hsd, _, _, hs'⟩ := submit_settlement_ok s mid' scd bcd so bo s' hc
    subst hs'
    refine ⟨fun n h => h, fun hni id hid => ?_, fun _ mid h => ?_⟩
    · have hid' : s.match_nonce ≤ id := hid
      have hne : id ≠ mid' := by
        intro he
        subst he
        rw [hni id hid'] at hb0
        exact hb0 rfl
      show Function.update s.matched_pairs mid' _ id = MatchedPair.zero
      rw [Function.update_noteq hne]
      exact hni id hid'
    · rcases eq_or_ne mid mid' with rfl | hne
      · rw [h] at hsd; exact Bool.noConfusion hsd
      · show (Function.update s.matched_pairs mid' _ mid).settled = true
        rw [Function.update_noteq hne]
        exact h
  | cancelOrderCall cm caller =>
    obtain ⟨hsp, hmp, hmn⟩ := cancel_order_ok_fields s cm caller s' hc
    refine ⟨fun n h => by rw [hsp]; exact h, fun hni id hid => ?_,
      fun _ mid h => by rw [hmp]; exact h⟩
    rw [hmp]
    exact hni id (hmn ▸ hid)

theorem reach_spent (h2 : Nat → Nat → Nat) (s s' : CState) (h : Reach h2 s s')
    (n : Nat) (hn : s.spent_nullifiers n = true) : s'.spent_nullifiers n = true := by
  induction h with
  | refl => exact hn
  | tail _ hstep ih => exact (stepR_invariants h2 _ _ hstep).1 n ih

theorem reach_settled (h2 : Nat → Nat → Nat) (s s' : CState) (h : Reach h2 s s')
    (mid : Nat) (hinv : NonceInv s) (hsd : (s.matched_pairs mid).settled = true) :
    NonceInv s' ∧ (s'.matched_pairs mid).settled = true := by
  induction h with
  | refl => exact ⟨hinv, hsd⟩
  | tail _ hstep ih =>
    exact ⟨(stepR_invariants h2 _ _ hstep).2.1 ih.1,
      (stepR_invariants h2 _ _ hstep).2.2 ih.1 mid ih.2⟩

theorem submit_settlement_fails_of_settled (s : CState) (mid : Nat)
    (sc bc : List Nat) (so bo : Bool)
    (h : (s.matched_pairs mid).settled = true) :
    ∃ e, submit_settlement s mid sc bc so bo = .error e := by
  simp only [submit_settlement]
  by_cases hb : (s.matched_pairs mid).buy_commitment = 0
  · exact ⟨_, by rw [if_pos hb]⟩
  · exact ⟨_, by rw [if_neg hb, if_pos h]⟩

/-! ## Claim C3 — settlement executes at most once -/

/-- **C3.** A successful `submit_settlement` forwards both bilateral Tongo
transfers, sets both referenced orders' status to Settled(3), and sets the
match record's `settled` flag; afterwards every `submit_settlement` call
for the same `match_id`, in any reachable later state, reverts (the first
guard to trip is the `settled` flag or the match-not-found check), leaving
state unchanged by the revert semantics of the embedding. -/
theorem c3_settlement_at_most_once (h2 : Nat → Nat → Nat) (s : CState)
    (mid : Nat) (sc bc : List Nat) (so bo : Bool) (s₁ : CState)
    (hinv : NonceInv s)
    (hok : submit_settlement s mid sc bc so bo = .ok s₁) :
    (s₁.matched_pairs mid).settled = true ∧
    (s₁.matched_pairs mid).buy_commitment = (s.matched_pairs mid).buy_commitment ∧
    (s₁.matched_pairs mid).sell_commitment = (s.matched_pairs mid).sell_commitment ∧
    (s₁.order_commitments (s.matched_pairs mid).buy_commitment).status = 3 ∧
    (s₁.order_commitments (s.matched_pairs mid).sell_commitment).status = 3 ∧
    s₁.transferCalls = s.transferCalls ++ [(s.tongo_wbtc, sc), (s.tongo_usdc, bc)] ∧
    ∀ s₂, Reach h2 s₁ s₂ →
      ∀ sc' bc' so' bo', ∃ e, submit_settlement s₂ mid sc' bc' so' bo' = .error e := by
  obtain ⟨hb0, hsd, _, _, hs'⟩ := submit_settlement_ok s mid sc bc so bo s₁ hok
  subst hs'
  have hsettled : (Function.update s.matched_pairs mid
      { s.matched_pairs mid with settled := true } mid).settled = true := by
    rw [Function.update_same]
  refine ⟨hsettled, ?_, ?_, ?_, ?_, rfl, ?_⟩
  · show (Function.update s.matched_pairs mid _ mid).buy_commitment =
      (s.matched_pairs mid).buy_commitment
    rw [Function.update_same]
  · show (Function.update s.matched_pairs mid _ mid).sell_commitment =
      (s.matched_pairs mid).sell_commitment
    rw [Function.update_same]
  · show (Function.update
        (Function.update s.order_commitments (s.matched_pairs mid).buy_commitment _)
        (s.matched_pairs mid).sell_commitment _
        (s.matched_pairs mid).buy_commitment).status = 3
    rcases eq_or_ne (s.matched_pairs mid).buy_commitment
        (s.matched_pairs mid).sell_commitment with he | hne
    · rw [he, Function.update_same]
    · rw [Function.update_noteq hne, Function.update_same]
  · show (Function.update
        (Function.update s.order_commitments (s.matched_pairs mid).buy_commitment _)
        (s.matched_pairs mid).sell_commitment _
        (s.matched_pairs mid).sell_commitment).status = 3
    rw [Function.update_same]
  · intro s₂ hreach sc' bc' so' bo'
    have hinv₁ : NonceInv _ :=
      (stepR_invariants h2 s _ ⟨.submitSettlementCall mid sc bc so bo, hok⟩).2.1 hinv
    have h₂ := reach_settled h2 _ s₂ hreach mid hinv₁ hsettled
    exact submit_settlement_fails_of_settled s₂ mid sc' bc' so' bo' h₂.2

/-! ## Claim C4 — condense guards and nullifier single-use -/

/-- **C4.** `condense` reverts when the denomination is not one of the
three fixed values, when the proof's public accumulator root differs from
the current on-chain root, or when the nullifier (public input 3) is
already spent — the latter regardless of proof validity.  A successful
call marks exactly its nullifier spent, and after it, every `condense`
call in any reachable state that carries the same nullifier (or an invalid
proof) reverts; a reverted call leaves the spent-nullifier set unchanged
by the revert semantics of the embedding. -/
theorem c4_condense_nullifier_single_use (h2 : Nat → Nat → Nat) :
    (∀ s pr den pa da t, ¬ validDenomination den →
      condense s pr den pa da t = .error "invalid denomination") ∧
    (∀ s (inputs : List Nat) den pa da t pi0, inputs[0]? = some pi0 →
      pi0 ≠ s.accumulator_root →
      ∃ e, condense s (some inputs) den pa da t = .error e) ∧
    (∀ s pr den pa da t n, s.spent_nullifiers n = true →
      (pr = none ∨ ∃ inputs, pr = some inputs ∧ inputs[3]? = some n) →
      ∃ e, condense s pr den pa da t = .error e) ∧
    (∀ s pr den pa da t s', condense s pr den pa da t = .ok s' →
      ∃ inputs pi3, pr = some inputs ∧ inputs[3]? = some pi3 ∧
        s.spent_nullifiers pi3 = false ∧
        s'.spent_nullifiers = Function.update s.spent_nullifiers pi3 true) ∧
    (∀ s pr den pa da t s', condense s pr den pa da t = .ok s' →
      ∀ inputs pi3, pr = some inputs → inputs[3]? = some pi3 →
      ∀ s₂, Reach h2 s' s₂ →
      ∀ pr' den' pa' da' t',
        (pr' = none ∨ ∃ inputs', pr' = some inputs' ∧ inputs'[3]? = some pi3) →
        ∃ e, condense s₂ pr' den' pa' da' t' = .error e) := by
  refine ⟨condense_fails_of_bad_denomination, condense_fails_of_stale_root,
    condense_fails_of_spent_nullifier, ?_, ?_⟩
  · intro s pr den pa da t s' hok
    obtain ⟨inputs, pi3, hpr, h3, _, hunspent, _, _, hs'⟩ :=
      condense_ok s pr den pa da t s' hok
    exact ⟨inputs, pi3, hpr, h3, hunspent, by rw [hs']⟩
  · intro s pr den pa da t s' hok inputs pi3 hpr h3 s₂ hreach pr' den' pa' da' t' hpr'
    obtain ⟨inputs0, pi30, hpr0, h30, _, _, _, _, hs'⟩ :=
      condense_ok s pr den pa da t s' hok
    have : inputs0 = inputs := by
      rw [hpr] at hpr0
      injection hpr0 with he
      exact he.symm
    subst this
    have he2 : pi30 = pi3 := by
      rw [h3] at h30
      injection h30 with he
      exact he.symm
    rw [he2] at hs'
    have hspent₁ : s'.spent_nullifiers pi3 = true := by
      rw [hs']
      show Function.update s.spent_nullifiers pi3 true pi3 = true
      rw [Function.update_same]
    have hspent₂ : s₂.spent_nullifiers pi3 = true :=
      reach_spent h2 s' s₂ hreach pi3 hspent₁
    exact condense_fails_of_spent_nullifier s₂ pr' den' pa' da' t' pi3 hspent₂ hpr'

/-! ## Claim C5 — submit_match transitions Active → Matched -/

/-- **C5.** `submit_match` succeeds only when the proof verifies (and its
public inputs decode) and both referenced orders are present and
Active(1); on success it marks both orders Matched(2), leaves all other
order records untouched, and creates the match record
`(buy, sell, settlement, settled := false)` under the fresh id
`match_nonce` (fresh by the nonce invariant), bumping the nonce.  If the
proof fails, or either referenced order is missing or not Active, the call
reverts, changing no state. -/
theorem c5_submit_match_active_only :
    (∀ s pr s', submit_match s pr = .ok s' →
      ∃ inputs bc sc stc, pr = some inputs ∧
        inputs[0]? = some bc ∧ inputs[1]? = some sc ∧ inputs[2]? = some stc ∧
        (s.order_commitments bc).trader ≠ 0 ∧ (s.order_commitments bc).status = 1 ∧
        (s.order_commitments sc).trader ≠ 0 ∧ (s.order_commitments sc).status = 1 ∧
        (s'.order_commitments bc).status = 2 ∧
        (s'.order_commitments sc).status = 2 ∧
        s'.matched_pairs s.match_nonce =
          { buy_commitment := bc, sell_commitment := sc,
            settlement_commitment := stc, settled := false } ∧
        s'.match_nonce = s.match_nonce + 1 ∧
        (NonceInv s → s.matched_pairs s.match_nonce = MatchedPair.zero) ∧
        (∀ c, c ≠ bc → c ≠ sc → s'.order_commitments c = s.order_commitments c)) ∧
    (∀ s (inputs : List Nat) bc, inputs[0]? = some bc →
      ((s.order_commitments bc).trader = 0 ∨ (s.order_commitments bc).status ≠ 1) →
      ∃ e, submit_match s (some inputs) = .error e) ∧
    (∀ s (inputs : List Nat) sc, inputs[1]? = some sc →
      ((s.order_commitments sc).trader = 0 ∨ (s.order_commitments sc).status ≠ 1) →
      ∃ e, submit_match s (some inputs) = .error e) ∧
    (∀ s, ∃ e, submit_match s none = .error e) := by
  refine ⟨?_, ?_, ?_, fun s => ⟨_, rfl⟩⟩
  · intro s pr s' hok
    obtain ⟨inputs, pi0, pi1, pi2, hpr, h0, h1, h2', _, _, _, hbt, hbs, hst, hss, _, hs'⟩ :=
      submit_match_ok s pr s' hok
    subst hs'
    refine ⟨inputs, pi0, pi1, pi2, hpr, h0, h1, h2', hbt, hbs, hst, hss, ?_, ?_,
      ?_, rfl, fun hni => hni s.match_nonce le_rfl, ?_⟩
    · show (Function.update (Function.update s.order_commitments pi0 _) pi1 _ pi0).status = 2
      rcases eq_or_ne pi0 pi1 with he | hne
      · rw [he, Function.update_same]
      · rw [Function.update_noteq hne, Function.update_same]
    · show (Function.update (Function.update s.order_commitments pi0 _) pi1 _ pi1).status = 2
      rw [Function.update_same]
    · show Function.update s.matched_pairs s.match_nonce _ s.match_nonce = _
      rw [Function.update_same]
    · intro c hcb hcs
      show Function.update (Function.update s.order_commitments pi0 _) pi1 _ c =
        s.order_commitments c
      rw [Function.update_noteq hcs, Function.update_noteq hcb]
  · intro s inputs bc h0 hbad
    cases hok : submit_match s (some inputs) with
    | error e => exact ⟨e, rfl⟩
    | ok s' =>
      obtain ⟨inputs0, pi0, _, _, hpr, h00, _, _, _, _, _, hbt, hbs, _, _, _, _⟩ :=
        submit_match_ok s (some inputs) s' hok
      have he1 : inputs0 = inputs := by injection hpr with he; exact he.symm
      subst he1
      have he2 : pi0 = bc := by
        rw [h0] at h00
        injection h00 with he
        exact he.symm
      rw [he2] at hbt hbs
      rcases hbad with hbad | hbad
      · exact absurd hbad hbt
      · exact absurd hbs hbad
  · intro s inputs sc h1 hbad
    cases hok : submit_match s (some inputs) with
    | error e => exact ⟨e, rfl⟩
    | ok s' =>
      obtain ⟨inputs0, _, pi1, _, hpr, _, h10, _, _, _, _, _, _, hst, hss, _, _⟩ :=
        submit_match_ok s (some inputs) s' hok
      have he1 : inputs0 = inputs := by injection hpr with he; exact he.symm
      subst he1
      have he2 : pi1 = sc := by
        rw [h1] at h10
        injection h10 with he
        exact he.symm
      rw [he2] at hst hss
      rcases hbad with hbad | hbad
      · exact absurd hbad hst
      · exact absurd hss hbad

theorem c3s0_nonceInv : NonceInv c3s0 := by
  intro id hid
  have h1 : 1 ≤ id := hid
  show (if id = 0 then (⟨5, 6, 7, false⟩ : MatchedPair) else MatchedPair.zero) =
    MatchedPair.zero
  rw [if_neg (by omega)]

theorem c3_settlement_at_most_once_witness :
    ∃ s₁, submit_settlement c3s0 0 [1] [2] true true = .ok s₁ ∧
      ((s₁.matched_pairs 0).settled = true ∧
       (s₁.matched_pairs 0).buy_commitment = (c3s0.matched_pairs 0).buy_commitment ∧
       (s₁.matched_pairs 0).sell_commitment = (c3s0.matched_pairs 0).sell_commitment ∧
       (s₁.order_commitments (c3s0.matched_pairs 0).buy_commitment).status = 3 ∧
       (s₁.order_commitments (c3s0.matched_pairs 0).sell_commitment).status = 3 ∧
       s₁.transferCalls = c3s0.transferCalls ++
         [(c3s0.tongo_wbtc, [1]), (c3s0.tongo_usdc, [2])] ∧
       ∀ s₂, Reach sHashN s₁ s₂ →
         ∀ sc' bc' so' bo', ∃ e, submit_settlement s₂ 0 sc' bc' so' bo' = .error e) :=
  ⟨_, rfl, c3_settlement_at_most_once sHashN c3s0 0 [1] [2] true true _ c3s0_nonceInv rfl⟩

theorem c4_condense_nullifier_single_use_witness :
    ∃ e, condense c4s1 (some [3, 0, 10000000, 42]) 10000000 77 (some 77) true = .error e :=
  (c4_condense_nullifier_single_use sHashN).2.2.2.2 c4s0
    (some [3, 0, 10000000, 42]) 10000000 77 (some 77) true c4s1 rfl
    [3, 0, 10000000, 42] 42 rfl rfl c4s1 Relation.ReflTransGen.refl
    (some [3, 0, 10000000, 42]) 10000000 77 (some 77) true (.inr ⟨_, rfl, rfl⟩)

theorem c5_submit_match_active_only_witness :
    ∃ s', submit_match c5s0 (some [5, 6, 7]) = .ok s' ∧
      (∃ inputs bc sc stc, (some [5, 6, 7] : Option (List Nat)) = some inputs ∧
        inputs[0]? = some bc ∧ inputs[1]? = some sc ∧ inputs[2]? = some stc ∧
        (c5s0.order_commitments bc).trader ≠ 0 ∧ (c5s0.order_commitments bc).status = 1 ∧
        (c5s0.order_commitments sc).trader ≠ 0 ∧ (c5s0.order_commitments sc).status = 1 ∧
        (s'.order_commitments bc).status = 2 ∧
        (s'.order_commitments sc).status = 2 ∧
        s'.matched_pairs c5s0.match_nonce =
          { buy_commitment := bc, sell_commitment := sc,
            settlement_commitment := stc, settled := false } ∧
        s'.match_nonce = c5s0.match_nonce + 1 ∧
        (NonceInv c5s0 → c5s0.matched_pairs c5s0.match_nonce = MatchedPair.zero) ∧
        (∀ c, c ≠ bc → c ≠ sc → s'.order_commitments c = c5s0.order_commitments c)) :=
  ⟨_, rfl, c5_submit_match_active_only.1 c5s0 (some [5, 6, 7]) _ rfl⟩

/-- **C7 (counterexample).** The claim "once a match reaches a terminal or
settled outcome the private order terms of both legs are gone from the
store" is false: when `prove()` fails, `_proveAndSubmit` marks the match
`failed` but leaves both legs' secrets in `orderSecrets` (deletion only
happens on the successful-confirmation path, `relay.ts` lines 188–190). -/
theorem c7_discard_counterexample :
    ¬ (∀ (store : Nat → Option Order) (m : MatchResult) (proveOk submitOk : Bool),
        (proveAndSubmit store m proveOk submitOk).2 = .failed →
        (proveAndSubmit store m proveOk submitOk).1 m.buyCommitment = none ∧
        (proveAndSubmit store m proveOk submitOk).1 m.sellCommitment = none) := by
  intro h
  have hc := h c7store c7match false true rfl
  exact absurd hc.1 (by decide)

/-- **C7 (amended).** The store drops a match's two legs exactly on the
successful confirmation path: when both legs are present and proving and
submission succeed, `_proveAndSubmit` confirms the match and deletes both
secrets; every `failed` outcome leaves the store exactly as it was (so
order terms present before a failure are retained); and
`_trySubmitSettlement` (hence settling) never modifies the store. -/
theorem c7_discard_on_confirm :
    (∀ (store : Nat → Option Order) (m : MatchResult),
      store m.buyCommitment ≠ none → store m.sellCommitment ≠ none →
      (proveAndSubmit store m true true).1 m.buyCommitment = none ∧
      (proveAndSubmit store m true true).1 m.sellCommitment = none ∧
      (proveAndSubmit store m true true).2 = .confirmed) ∧
    (∀ (store : Nat → Option Order) (m : MatchResult) (proveOk submitOk : Bool),
      (proveAndSubmit store m proveOk submitOk).2 = .failed →
      (proveAndSubmit store m proveOk submitOk).1 = store) ∧
    (∀ (store : Nat → Option Order) (st : MStatus) (hasBothPayloads settleOk : Bool),
      (trySubmitSettlement store st hasBothPayloads settleOk).1 = store) := by
  refine ⟨?_, ?_, ?_⟩
  · intro store m hb hs
    cases hbo : store m.buyCommitment with
    | none => exact absurd hbo hb
    | some ob =>
      cases hso : store m.sellCommitment with
      | none => exact absurd hso hs
      | some os =>
        simp only [proveAndSubmit, hbo, hso]
        refine ⟨?_, ?_, ?_⟩
        · rw [if_neg (by simp : ¬(true = false)), if_pos trivial]
          show Function.update (Function.update store m.buyCommitment none)
            m.sellCommitment none m.buyCommitment = none
          rcases eq_or_ne m.buyCommitment m.sellCommitment with he | hne
          · rw [he, Function.update_same]
          · rw [Function.update_noteq hne, Function.update_same]
        · rw [if_neg (by simp : ¬(true = false)), if_pos trivial]
          show Function.update (Function.update store m.buyCommitment none)
            m.sellCommitment none m.sellCommitment = none
          rw [Function.update_same]
        · rw [if_neg (by simp : ¬(true = false)), if_pos trivial]
  · intro store m proveOk submitOk hfail
    cases hbo : store m.buyCommitment with
    | none => simp only [proveAndSubmit, hbo]
    | some ob =>
      cases hso : store m.sellCommitment with
      | none => simp only [proveAndSubmit, hbo, hso]
      | some os =>
        simp only [proveAndSubmit, hbo, hso] at hfail ⊢
        cases proveOk
        · rw [if_pos rfl]
        · rw [if_neg (by simp)] at hfail ⊢
          cases submitOk
          · rw [if_neg (by simp)]
          · rw [if_pos rfl] at hfail
            exact MStatus.noConfusion hfail
  · intro store st hasBothPayloads settleOk
    unfold trySubmitSettlement
    split_ifs <;> rfl

theorem c7_discard_on_confirm_witness :
    (proveAndSubmit c7store c7match true true).1 c7match.buyCommitment = none ∧
    (proveAndSubmit c7store c7match true true).1 c7match.sellCommitment = none ∧
    (proveAndSubmit c7store c7match true true).2 = .confirmed :=
  c7_discard_on_confirm.1 c7store c7match (by decide) (by decide)

/-- Two-at-a-time list induction, matching `pairUpZ`'s recursion. -/
theorem twoStepInduction {α : Type} {motive : List α → Prop} (hnil : motive [])
    (hsingle : ∀ a, motive [a])
    (hstep : ∀ a b l, motive l → motive (a :: b :: l)) : ∀ l, motive l := by
  have key : ∀ l : List α, motive l ∧ ∀ a, motive (a :: l) := by
    intro l
    induction l with
    | nil => exact ⟨hnil, hsingle⟩
    | cons b l ihl => exact ⟨ihl.2 b, fun a => hstep a b l ihl.1⟩
  exact fun l => (key l).1

theorem pairUpZ_length (h2 : Nat → Nat → Nat) (z : Nat) (l : List Nat) :
    (pairUpZ h2 z l).length = (l.length + 1) / 2 := by
  induction l using twoStepInduction with
  | hnil => rfl
  | hsingle a => simp [pairUpZ]
  | hstep a b l ih =>
    show (pairUpZ h2 z l).length + 1 = (l.length + 2 + 1) / 2
    rw [ih]
    omega

theorem pairUpZ_take (h2 : Nat → Nat → Nat) (z : Nat) (l : List Nat) :
    ∀ n : Nat, (pairUpZ h2 z l).take n = pairUpZ h2 z (l.take (2 * n)) := by
  induction l using twoStepInduction with
  | hnil => intro n; simp [pairUpZ]
  | hsingle a =>
    intro n
    cases n with
    | zero => rfl
    | succ m => simp [pairUpZ]
  | hstep a b l ih =>
    intro n
    cases n with
    | zero => rfl
    | succ m =>
      show h2 a b :: (pairUpZ h2 z l).take m = pairUpZ h2 z ((a :: b :: l).take (2 * m + 2))
      rw [ih m]
      rfl

theorem pairUpZ_drop (h2 : Nat → Nat → Nat) (z : Nat) (l : List Nat) :
    ∀ n : Nat, (pairUpZ h2 z l).drop n = pairUpZ h2 z (l.drop (2 * n)) := by
  induction l using twoStepInduction with
  | hnil => intro n; simp [pairUpZ]
  | hsingle a =>
    intro n
    cases n with
    | zero => rfl
    | succ m => simp [pairUpZ]
  | hstep a b l ih =>
    intro n
    cases n with
    | zero => rfl
    | succ m =>
      show (pairUpZ h2 z l).drop m = pairUpZ h2 z ((a :: b :: l).drop (2 * m + 2))
      rw [ih m]
      rfl

theorem pairUpZ_congr_z (h2 : Nat → Nat → Nat) (z z' : Nat) (l : List Nat) :
    l.length % 2 = 0 → pairUpZ h2 z l = pairUpZ h2 z' l := by
  induction l using twoStepInduction with
  | hnil => intro _; rfl
  | hsingle a => intro hl; simp at hl
  | hstep a b l ih =>
    intro hl
    show h2 a b :: pairUpZ h2 z l = h2 a b :: pairUpZ h2 z' l
    rw [ih (by simp at hl; omega)]

theorem pairUpZ_append_even (h2 : Nat → Nat → Nat) (z : Nat) (l : List Nat) :
    ∀ l' : List Nat, l.length % 2 = 0 →
      pairUpZ h2 z (l ++ l') = pairUpZ h2 z l ++ pairUpZ h2 z l' := by
  induction l using twoStepInduction with
  | hnil => intro l' _; rfl
  | hsingle a => intro l' hl; simp at hl
  | hstep a b l ih =>
    intro l' hl
    show h2 a b :: pairUpZ h2 z (l ++ l') = h2 a b :: pairUpZ h2 z l ++ pairUpZ h2 z l'
    rw [ih l' (by simp at hl; omega)]
    rfl

theorem pairUpZ_replicate (h2 : Nat → Nat → Nat) (z w : Nat) :
    ∀ m : Nat, pairUpZ h2 z (List.replicate (2 * m) w) = List.replicate m (h2 w w) := by
  intro m
  induction m with
  | zero => rfl
  | succ k ih =>
    show pairUpZ h2 z (List.replicate (2 * k + 2) w) = List.replicate (k + 1) (h2 w w)
    rw [show (2 * k + 2) = (2 * k).succ.succ from rfl, List.replicate_succ,
      List.replicate_succ]
    show h2 w w :: pairUpZ h2 z (List.replicate (2 * k) w) = _
    rw [ih, List.replicate_succ]

theorem brootL_nil (h2 : Nat → Nat → Nat) :
    ∀ (d L : Nat), brootL h2 L d [] = merkleZero h2 (L + d) := by
  intro d
  induction d with
  | zero => intro L; rfl
  | succ k ih =>
    intro L
    show h2 (brootL h2 L k (List.take (2 ^ k) [])) (brootL h2 L k (List.drop (2 ^ k) [])) = _
    rw [List.take_nil, List.drop_nil, ih L]
    rfl

/-- Collapsing one level: the depth-`d+1` root over level-`L` nodes equals
the depth-`d` root over the paired-up level-`L+1` nodes. -/
theorem brootL_pairUp (h2 : Nat → Nat → Nat) :
    ∀ (d L : Nat) (ls : List Nat),
      brootL h2 (L + 1) d (pairUpZ h2 (merkleZero h2 L) ls) = brootL h2 L (d + 1) ls := by
  intro d
  induction d with
  | zero =>
    intro L ls
    match ls with
    | [] => rfl
    | [a] => rfl
    | a :: b :: l =>
      show h2 a b = h2 (((a :: b :: l).take 1).headD (merkleZero h2 L))
        (((a :: b :: l).drop 1).headD (merkleZero h2 L))
      rfl
  | succ k ih =>
    intro L ls
    have hp : 2 * 2 ^ k = 2 ^ (k + 1) := by rw [pow_succ]; ring
    show h2 (brootL h2 (L + 1) k ((pairUpZ h2 (merkleZero h2 L) ls).take (2 ^ k)))
        (brootL h2 (L + 1) k ((pairUpZ h2 (merkleZero h2 L) ls).drop (2 ^ k))) =
      h2 (brootL h2 L (k + 1) (ls.take (2 ^ (k + 1))))
        (brootL h2 L (k + 1) (ls.drop (2 ^ (k + 1))))
    rw [pairUpZ_take, pairUpZ_drop, ih L, ih L, hp]

/-- Pairing a zero-padded level: the pad condenses to a half-length pad of
the next level's zero value. -/
theorem pairUpZ_pad (h2 : Nat → Nat → Nat) (z : Nat) (l : List Nat) :
    ∀ k : Nat, (l.length + k) % 2 = 0 →
      pairUpZ h2 0 (l ++ List.replicate k z) =
        pairUpZ h2 z l ++
          List.replicate ((l.length + k) / 2 - (l.length + 1) / 2) (h2 z z) := by
  induction l using twoStepInduction with
  | hnil =>
    intro k hk
    simp only [List.length_nil] at hk ⊢
    obtain ⟨m, hm⟩ : ∃ m, k = 2 * m := ⟨k / 2, by omega⟩
    subst hm
    rw [List.nil_append, pairUpZ_replicate]
    show List.replicate m (h2 z z) = [] ++ List.replicate _ (h2 z z)
    rw [List.nil_append]
    congr 1
    omega
  | hsingle a =>
    intro k hk
    simp only [List.length_singleton] at hk ⊢
    obtain ⟨m, hm⟩ : ∃ m, k = 2 * m + 1 := ⟨k / 2, by omega⟩
    subst hm
    rw [List.replicate_succ]
    show h2 a z :: pairUpZ h2 0 (List.replicate (2 * m) z) =
      pairUpZ h2 z [a] ++ List.replicate ((1 + (2 * m + 1)) / 2 - (1 + 1) / 2) (h2 z z)
    rw [pairUpZ_replicate,
      show pairUpZ h2 z [a] = [h2 a z] from rfl, List.singleton_append,
      show (1 + (2 * m + 1)) / 2 - (1 + 1) / 2 = m by omega]
  | hstep a b l ih =>
    intro k hk
    simp only [List.length_cons] at hk ⊢
    show h2 a b :: pairUpZ h2 0 (l ++ List.replicate k z) =
      (h2 a b :: pairUpZ h2 z l) ++
        List.replicate ((l.length + 1 + 1 + k) / 2 - (l.length + 1 + 1 + 1) / 2) (h2 z z)
    rw [ih k (by omega), List.cons_append]
    have hcount : (l.length + k) / 2 - (l.length + 1) / 2 =
        (l.length + 1 + 1 + k) / 2 - (l.length + 1 + 1 + 1) / 2 := by omega
    rw [hcount]

/-- The literal padded bottom-up fold computes `brootL`. -/
theorem padEq (h2 : Nat → Nat → Nat) :
    ∀ (d L : Nat) (ls : List Nat), ls.length ≤ 2 ^ d →
      ((pairUpZ h2 0)^[d]
        (ls ++ List.replicate (2 ^ d - ls.length) (merkleZero h2 L))).headD 0 =
      brootL h2 L d ls := by
  intro d
  induction d with
  | zero =>
    intro L ls hlen
    match ls, hlen with
    | [], _ => rfl
    | [a], _ => rfl
    | a :: b :: l, hlen => exact absurd hlen (by simp)
  | succ d ih =>
    intro L ls hlen
    have h2d : 2 ^ (d + 1) = 2 * 2 ^ d := by rw [pow_succ]; ring
    rw [Function.iterate_succ_apply]
    rw [pairUpZ_pad h2 (merkleZero h2 L) ls (2 ^ (d + 1) - ls.length) (by omega)]
    have hcount : (ls.length + (2 ^ (d + 1) - ls.length)) / 2 - (ls.length + 1) / 2 =
        2 ^ d - (pairUpZ h2 (merkleZero h2 L) ls).length := by
      rw [pairUpZ_length]
      omega
    rw [hcount,
      show h2 (merkleZero h2 L) (merkleZero h2 L) = merkleZero h2 (L + 1) from rfl,
      ih (L + 1) (pairUpZ h2 (merkleZero h2 L) ls) (by rw [pairUpZ_length]; omega)]
    exact brootL_pairUp h2 d L ls

/-- Correctness of the `_insert_leaf` level loop: under the filled-subtree
invariant for the `ws` already inserted, inserting `cur` at index
`ws.length` returns the batch root of `ws ++ [cur]`, and the updated
`filled` map stores, at each level whose new spine position is a fresh
left child, the root of the subtree ending in `cur` (zero-padded). -/
theorem insertLoop_spec (h2 : Nat → Nat → Nat) :
    ∀ (d L : Nat) (ws : List Nat) (cur : Nat) (filled : Nat → Nat),
      ws.length < 2 ^ d → fInv h2 d L ws filled →
      (insertLoop h2 d filled cur ws.length L).1 = brootL h2 L d (ws ++ [cur]) ∧
      (∀ k, k < d → (insertLoop h2 d filled cur ws.length L).2 (L + k) =
        if ws.length / 2 ^ k % 2 = 0
        then brootL h2 L k ((ws ++ [cur]).drop (ws.length / 2 ^ k * 2 ^ k))
        else filled (L + k)) ∧
      (∀ j, j < L → (insertLoop h2 d filled cur ws.length L).2 j = filled j) := by
  intro d
  induction d with
  | zero =>
    intro L ws cur filled hlen _
    have hws : ws = [] := List.eq_nil_of_length_eq_zero (by omega)
    subst hws
    exact ⟨rfl, fun k hk => absurd hk (Nat.not_lt_zero k), fun j _ => rfl⟩
  | succ d ih =>
    intro L ws cur filled hlen hInv
    have h2d : 2 ^ (d + 1) = 2 * 2 ^ d := by rw [pow_succ]; ring
    by_cases hpar : ws.length % 2 = 0
    · -- the new leaf's spine starts as a left child at level L
      have hloop : insertLoop h2 (d + 1) filled cur ws.length L =
          insertLoop h2 d (Function.update filled L cur)
            (h2 cur (merkleZero h2 L)) (ws.length / 2) (L + 1) := by
        show (if ws.length % 2 = 0 then _ else _) = _
        rw [if_pos hpar]
      have hws' : (pairUpZ h2 (merkleZero h2 L) ws).length = ws.length / 2 := by
        rw [pairUpZ_length]; omega
      have hlt' : (pairUpZ h2 (merkleZero h2 L) ws).length < 2 ^ d := by
        rw [hws']; omega
      have happ : pairUpZ h2 (merkleZero h2 L) (ws ++ [cur]) =
          pairUpZ h2 (merkleZero h2 L) ws ++ [h2 cur (merkleZero h2 L)] := by
        rw [pairUpZ_append_even h2 _ ws [cur] hpar]
        rfl
      have hInv' : fInv h2 d (L + 1) (pairUpZ h2 (merkleZero h2 L) ws)
          (Function.update filled L cur) := by
        intro k hk hodd
        have hpk : 2 * 2 ^ k = 2 ^ (k + 1) := by rw [pow_succ]; ring
        have hq : (pairUpZ h2 (merkleZero h2 L) ws).length / 2 ^ k =
            ws.length / 2 ^ (k + 1) := by
          rw [hws', Nat.div_div_eq_div_mul, hpk]
        rw [hq] at hodd
        have horig := hInv (k + 1) (by omega) hodd
        have hupd : Function.update filled L cur (L + 1 + k) = filled (L + (k + 1)) := by
          rw [Function.update_noteq (by omega)]
          congr 1
          omega
        rw [hupd, horig, hq]
        rw [pairUpZ_drop, pairUpZ_take, brootL_pairUp]
        have e1 : 2 * ((ws.length / 2 ^ (k + 1) - 1) * 2 ^ k) =
            (ws.length / 2 ^ (k + 1) - 1) * 2 ^ (k + 1) := by rw [← hpk]; ring
        rw [e1, hpk]
      obtain ⟨ihroot, ihfill, ihlow⟩ := ih (L + 1) (pairUpZ h2 (merkleZero h2 L) ws)
        (h2 cur (merkleZero h2 L)) (Function.update filled L cur) hlt' hInv'
      rw [hws'] at ihroot ihfill ihlow
      refine ⟨?_, ?_, ?_⟩
      · rw [hloop, ihroot, ← happ, brootL_pairUp]
      · intro k hk
        cases k with
        | zero =>
          have h0 : ws.length / 2 ^ 0 % 2 = 0 := by simpa using hpar
          have hidx : ws.length / 2 ^ 0 * 2 ^ 0 = ws.length := by simp
          have goalkey : (insertLoop h2 d (Function.update filled L cur)
              (h2 cur (merkleZero h2 L)) (ws.length / 2) (L + 1)).2 L =
              brootL h2 L 0 ((ws ++ [cur]).drop (ws.length / 2 ^ 0 * 2 ^ 0)) := by
            rw [ihlow L (by omega), Function.update_same, hidx, List.drop_left]
            rfl
          rw [if_pos h0, hloop]
          exact goalkey
        | succ k' =>
          rw [hloop]
          have hk' : k' < d := by omega
          have hpk : 2 * 2 ^ k' = 2 ^ (k' + 1) := by rw [pow_succ]; ring
          have hq : ws.length / 2 / 2 ^ k' = ws.length / 2 ^ (k' + 1) := by
            rw [Nat.div_div_eq_div_mul, hpk]
          have hLk : L + (k' + 1) = (L + 1) + k' := by omega
          rw [hLk, ihfill k' hk', hq]
          by_cases hcond : ws.length / 2 ^ (k' + 1) % 2 = 0
          · rw [if_pos hcond, if_pos hcond, ← happ, pairUpZ_drop, brootL_pairUp]
            have e1 : 2 * (ws.length / 2 ^ (k' + 1) * 2 ^ k') =
                ws.length / 2 ^ (k' + 1) * 2 ^ (k' + 1) := by rw [← hpk]; ring
            rw [e1]
          · rw [if_neg hcond, if_neg hcond, Function.update_noteq (by omega)]
      · intro j hj
        rw [hloop, ihlow j (by omega), Function.update_noteq (by omega)]
    · -- the new leaf's spine starts as a right child at level L
      have hpar1 : ws.length % 2 = 1 := by omega
      have hne : ws ≠ [] := by
        intro he
        rw [he] at hpar1
        simp at hpar1
      have hsplit : ws.dropLast ++ [ws.getLast hne] = ws := List.dropLast_append_getLast hne
      have hysl : ws.dropLast.length = ws.length - 1 := List.length_dropLast ws
      have hdrop : ws.drop (ws.length - 1) = [ws.getLast hne] := by
        have hd := List.drop_left ws.dropLast [ws.getLast hne]
        rw [hsplit] at hd
        rw [← hysl]
        exact hd
      have hfL : filled L = ws.getLast hne := by
        have h0 := hInv 0 (by omega) (by simpa using hpar1)
        rw [Nat.add_zero] at h0
        rw [h0]
        have hidx : (ws.length / 2 ^ 0 - 1) * 2 ^ 0 = ws.length - 1 := by simp
        rw [hidx, hdrop]
        rfl
      have hloop : insertLoop h2 (d + 1) filled cur ws.length L =
          insertLoop h2 d filled (h2 (ws.getLast hne) cur) (ws.length / 2) (L + 1) := by
        show (if ws.length % 2 = 0 then _ else _) = _
        rw [if_neg hpar, hfL]
      have hys2 : ws.dropLast.length % 2 = 0 := by omega
      have hws' : (pairUpZ h2 (merkleZero h2 L) ws.dropLast).length = ws.length / 2 := by
        rw [pairUpZ_length, hysl]; omega
      have hlt' : (pairUpZ h2 (merkleZero h2 L) ws.dropLast).length < 2 ^ d := by
        rw [hws']; omega
      have happ : pairUpZ h2 (merkleZero h2 L) (ws ++ [cur]) =
          pairUpZ h2 (merkleZero h2 L) ws.dropLast ++ [h2 (ws.getLast hne) cur] := by
        conv_lhs => rw [← hsplit]
        rw [List.append_assoc,
          pairUpZ_append_even h2 _ ws.dropLast ([ws.getLast hne] ++ [cur]) hys2]
        rfl
      have hInv' : fInv h2 d (L + 1) (pairUpZ h2 (merkleZero h2 L) ws.dropLast) filled := by
        intro k hk hodd
        have hpk : 2 * 2 ^ k = 2 ^ (k + 1) := by rw [pow_succ]; ring
        have hq : (pairUpZ h2 (merkleZero h2 L) ws.dropLast).length / 2 ^ k =
            ws.length / 2 ^ (k + 1) := by
          rw [hws', Nat.div_div_eq_div_mul, hpk]
        rw [hq] at hodd
        have horig := hInv (k + 1) (by omega) hodd
        have hLk : L + 1 + k = L + (k + 1) := by omega
        rw [hLk, horig, hq]
        have hppos : 0 < 2 ^ (k + 1) := pow_pos (by omega) (k + 1)
        have hQ1 : 1 ≤ ws.length / 2 ^ (k + 1) := by
          generalize ws.length / 2 ^ (k + 1) = Q at hodd ⊢
          omega
        have hQle : ws.length / 2 ^ (k + 1) * 2 ^ (k + 1) ≤ ws.length :=
          Nat.div_mul_le_self _ _
        have hQne : ws.length / 2 ^ (k + 1) * 2 ^ (k + 1) ≠ ws.length := by
          intro he
          have h2dvd : 2 ∣ ws.length := by
            rw [← he]
            exact ⟨ws.length / 2 ^ (k + 1) * 2 ^ k, by rw [← hpk]; ring⟩
          omega
        have hm : (ws.length / 2 ^ (k + 1) - 1) * 2 ^ (k + 1) + 2 ^ (k + 1) =
            ws.length / 2 ^ (k + 1) * 2 ^ (k + 1) := by
          have hsucc : ws.length / 2 ^ (k + 1) - 1 + 1 = ws.length / 2 ^ (k + 1) := by omega
          calc (ws.length / 2 ^ (k + 1) - 1) * 2 ^ (k + 1) + 2 ^ (k + 1)
              = (ws.length / 2 ^ (k + 1) - 1 + 1) * 2 ^ (k + 1) := by ring
            _ = _ := by rw [hsucc]
        have hslice : (ws.drop ((ws.length / 2 ^ (k + 1) - 1) * 2 ^ (k + 1))).take (2 ^ (k + 1)) =
            (ws.dropLast.drop ((ws.length / 2 ^ (k + 1) - 1) * 2 ^ (k + 1))).take
              (2 ^ (k + 1)) := by
          generalize hgm : (ws.length / 2 ^ (k + 1) - 1) * 2 ^ (k + 1) = m
          conv_lhs => rw [← hsplit]
          rw [List.drop_append_of_le_length (by omega), List.take_append_of_le_length
            (by rw [List.length_drop]; omega)]
        rw [hslice, pairUpZ_drop, pairUpZ_take, brootL_pairUp]
        have e1 : 2 * ((ws.length / 2 ^ (k + 1) - 1) * 2 ^ k) =
            (ws.length / 2 ^ (k + 1) - 1) * 2 ^ (k + 1) := by rw [← hpk]; ring
        rw [e1, hpk]
      obtain ⟨ihroot, ihfill, ihlow⟩ := ih (L + 1) (pairUpZ h2 (merkleZero h2 L) ws.dropLast)
        (h2 (ws.getLast hne) cur) filled hlt' hInv'
      rw [hws'] at ihroot ihfill ihlow
      refine ⟨?_, ?_, ?_⟩
      · rw [hloop, ihroot, ← happ, brootL_pairUp]
      · intro k hk
        cases k with
        | zero =>
          rw [hloop, Nat.add_zero]
          have h0 : ¬ ws.length / 2 ^ 0 % 2 = 0 := by simpa using hpar
          rw [if_neg h0]
          exact ihlow L (by omega)
        | succ k' =>
          rw [hloop]
          have hk' : k' < d := by omega
          have hpk : 2 * 2 ^ k' = 2 ^ (k' + 1) := by rw [pow_succ]; ring
          have hq : ws.length / 2 / 2 ^ k' = ws.length / 2 ^ (k' + 1) := by
            rw [Nat.div_div_eq_div_mul, hpk]
          have hLk : L + (k' + 1) = (L + 1) + k' := by omega
          rw [hLk, ihfill k' hk', hq]
          by_cases hcond : ws.length / 2 ^ (k' + 1) % 2 = 0
          · rw [if_pos hcond, if_pos hcond, ← happ, pairUpZ_drop, brootL_pairUp]
            have e1 : 2 * (ws.length / 2 ^ (k' + 1) * 2 ^ k') =
                ws.length / 2 ^ (k' + 1) * 2 ^ (k' + 1) := by rw [← hpk]; ring
            rw [e1]
          · rw [if_neg hcond, if_neg hcond]
      · intro j hj
        rw [hloop]
        exact ihlow j (by omega)

/-- One insertion preserves the filled-subtree invariant. -/
theorem fInv_next (h2 : Nat → Nat → Nat) (d L : Nat) (ws : List Nat) (cur : Nat)
    (filled : Nat → Nat) (hlen : ws.length < 2 ^ d) (hInv : fInv h2 d L ws filled) :
    fInv h2 d L (ws ++ [cur]) (insertLoop h2 d filled cur ws.length L).2 := by
  intro k hk hodd
  obtain ⟨_, hfill, _⟩ := insertLoop_spec h2 d L ws cur filled hlen hInv
  have hlen1 : (ws ++ [cur]).length = ws.length + 1 := by simp
  rw [hlen1] at hodd ⊢
  have hppos : 0 < 2 ^ k := pow_pos (by omega) k
  by_cases hdvd : 2 ^ k ∣ ws.length + 1
  · have hq : (ws.length + 1) / 2 ^ k = ws.length / 2 ^ k + 1 := by
      rw [Nat.succ_div, if_pos hdvd]
    have heven : ws.length / 2 ^ k % 2 = 0 := by
      rw [hq] at hodd
      generalize ws.length / 2 ^ k = A at hodd ⊢
      omega
    rw [hfill k hk, if_pos heven, hq]
    have hq1 : ws.length / 2 ^ k + 1 - 1 = ws.length / 2 ^ k := Nat.add_sub_cancel _ _
    rw [hq1]
    have hcancel : (ws.length + 1) / 2 ^ k * 2 ^ k = ws.length + 1 :=
      Nat.div_mul_cancel hdvd
    rw [hq] at hcancel
    have hlendrop : ((ws ++ [cur]).drop (ws.length / 2 ^ k * 2 ^ k)).length = 2 ^ k := by
      rw [List.length_drop, hlen1]
      have hdist : (ws.length / 2 ^ k + 1) * 2 ^ k =
          ws.length / 2 ^ k * 2 ^ k + 2 ^ k := by ring
      omega
    rw [List.take_of_length_le (le_of_eq hlendrop)]
  · have hq : (ws.length + 1) / 2 ^ k = ws.length / 2 ^ k := by
      rw [Nat.succ_div, if_neg hdvd]
      exact Nat.add_zero _
    have hodd' : ws.length / 2 ^ k % 2 = 1 := by rw [hq] at hodd; exact hodd
    have hodd'' : ¬ ws.length / 2 ^ k % 2 = 0 := by
      generalize ws.length / 2 ^ k = A at hodd' ⊢
      omega
    rw [hfill k hk, if_neg hodd'', hInv k hk hodd', hq]
    have hQle : ws.length / 2 ^ k * 2 ^ k ≤ ws.length := Nat.div_mul_le_self _ _
    have hQ1 : 1 ≤ ws.length / 2 ^ k := by
      generalize ws.length / 2 ^ k = A at hodd' ⊢
      omega
    have hm : (ws.length / 2 ^ k - 1) * 2 ^ k + 2 ^ k = ws.length / 2 ^ k * 2 ^ k := by
      have hsucc : ws.length / 2 ^ k - 1 + 1 = ws.length / 2 ^ k := by omega
      calc (ws.length / 2 ^ k - 1) * 2 ^ k + 2 ^ k
          = (ws.length / 2 ^ k - 1 + 1) * 2 ^ k := by ring
        _ = _ := by rw [hsucc]
    generalize hgm : (ws.length / 2 ^ k - 1) * 2 ^ k = m
    rw [List.drop_append_of_le_length (by omega),
      List.take_append_of_le_length (by rw [List.length_drop]; omega)]

theorem insertManyLeaves_spec (h2 : Nat → Nat → Nat) :
    ∀ (ls ws : List Nat) (s : CState),
      s.next_leaf_index = ws.length →
      s.accumulator_root = brootL h2 0 20 ws →
      fInv h2 20 0 ws s.filled_subtrees →
      ws.length + ls.length ≤ 2 ^ 20 →
      ∃ s', insertManyLeaves h2 s ls = .ok s' ∧
        s'.next_leaf_index = ws.length + ls.length ∧
        s'.accumulator_root = brootL h2 0 20 (ws ++ ls) ∧
        fInv h2 20 0 (ws ++ ls) s'.filled_subtrees := by
  intro ls
  induction ls with
  | nil =>
    intro ws s h1 h2r h3 _
    exact ⟨s, rfl, by simpa using h1, by simpa using h2r, by simpa using h3⟩
  | cons l ls ih =>
    intro ws s h1 h2r h3 hcap
    have hcap20 : (2 : Nat) ^ 20 = 1048576 := by norm_num
    have hlt : ws.length < 2 ^ 20 := by
      simp only [List.length_cons] at hcap
      omega
    have hidx : s.next_leaf_index < 1048576 := by rw [h1]; omega
    have hstep : insertLeaf h2 s l = .ok
        { s with
          accumulator_root := (insertLoop h2 20 s.filled_subtrees l ws.length 0).1
          filled_subtrees := (insertLoop h2 20 s.filled_subtrees l ws.length 0).2
          next_leaf_index := ws.length + 1 } := by
      unfold insertLeaf
      rw [if_pos hidx, h1]
    obtain ⟨hr, _, _⟩ := insertLoop_spec h2 20 0 ws l s.filled_subtrees hlt h3
    have hnext := fInv_next h2 20 0 ws l s.filled_subtrees hlt h3
    obtain ⟨s', hrun, hn', hroot', hfin'⟩ :=
      ih (ws ++ [l])
        { s with
          accumulator_root := (insertLoop h2 20 s.filled_subtrees l ws.length 0).1
          filled_subtrees := (insertLoop h2 20 s.filled_subtrees l ws.length 0).2
          next_leaf_index := ws.length + 1 }
        (by simp) hr hnext
        (by simp only [List.length_append, List.length_singleton, List.length_nil,
              List.length_cons] at hcap ⊢; omega)
    rw [List.append_assoc, List.singleton_append] at hroot' hfin'
    refine ⟨s', ?_, ?_, hroot', hfin'⟩
    · show (match insertLeaf h2 s l with
        | .ok s1 => insertManyLeaves h2 s1 ls
        | .error e => .error e) = .ok s'
      rw [hstep]
      exact hrun
    · rw [hn']
      simp only [List.length_append, List.length_singleton, List.length_nil,
        List.length_cons]
      omega

/-- **C6.** Inserting any `n ≤ 2^20` leaves sequentially through the
incremental filled-subtree `_insert_leaf` succeeds and yields the same
root as the batch bottom-up Merkle construction over the same leaves
zero-padded to full capacity; in particular the constructor's initial
root (`n = 0`) is `zeroHash(20)`. -/
theorem c6_incremental_equals_batch (h2 : Nat → Nat → Nat) (ls : List Nat)
    (hcap : ls.length ≤ 2 ^ 20) :
    (∃ s', insertManyLeaves h2 (initialTreeState h2) ls = .ok s' ∧
      s'.accumulator_root = paddedBatchRoot h2 ls ∧
      s'.next_leaf_index = ls.length) ∧
    (initialTreeState h2).accumulator_root = paddedBatchRoot h2 [] ∧
    paddedBatchRoot h2 [] = merkleZero h2 20 := by
  have hbatch : ∀ xs : List Nat, xs.length ≤ 2 ^ 20 →
      paddedBatchRoot h2 xs = brootL h2 0 20 xs := fun xs hxs => padEq h2 20 0 xs hxs
  have hinit_root : (initialTreeState h2).accumulator_root = brootL h2 0 20 [] := by
    show merkleZero h2 20 = brootL h2 0 20 []
    rw [brootL_nil]
  refine ⟨?_, ?_, ?_⟩
  · obtain ⟨s', hrun, hn, hroot, _⟩ :=
      insertManyLeaves_spec h2 ls [] (initialTreeState h2) rfl hinit_root
        (fun k _ h => by simp at h) (by simpa using hcap)
    rw [List.nil_append] at hroot
    exact ⟨s', hrun, by rw [hroot]; exact (hbatch ls hcap).symm, by simpa using hn⟩
  · rw [hbatch [] (by simp)]
    exact hinit_root
  · rw [hbatch [] (by simp), brootL_nil]

theorem c6_incremental_equals_batch_witness :
    (∃ s', insertManyLeaves sHashN (initialTreeState sHashN) [5] = .ok s' ∧
      s'.accumulator_root = paddedBatchRoot sHashN [5] ∧
      s'.next_leaf_index = [5].length) ∧
    (initialTreeState sHashN).accumulator_root = paddedBatchRoot sHashN [] ∧
    paddedBatchRoot sHashN [] = merkleZero sHashN 20 :=
  c6_incremental_equals_batch sHashN [5] (by norm_num)

theorem c9_public_view_independent_witness :
    OrderBook.publicOrders ⟨[(1, buyCrossEx)], [buyCrossEx], []⟩ =
      OrderBook.publicOrders ⟨[(1, buyCrossVar)], [buyCrossVar], []⟩ :=
  c9_public_view_independent ⟨[(1, buyCrossEx)], [buyCrossEx], []⟩
    ⟨[(1, buyCrossVar)], [buyCrossVar], []⟩
    (List.Forall₂.cons (by exact ⟨rfl, rfl, rfl, rfl, rfl⟩) List.Forall₂.nil)

end PhantomPool
